import Mathlib

/-!
Verification development for the relayfetch daemon (a relaying file mirror).

The development shallowly embeds the core subsystems of the repository:
the on-disk metadata sidecar codec (`src/sync/meta/mod.rs`), the per-file
download state machine (`src/sync/mod.rs`: `download_file`), the sync
orchestrator's status bookkeeping (`ConfigCenter` status writers), the
management core's `update_config` validation and `list_files`
(`src/management/core/mod.rs`), and the scheduler / trigger interaction.

Conventions: Rust `u64`/`usize`/`u32` values are modelled as `Nat` (with an
explicit `% 2 ^ 64` where wrap-around matters), `Option` stays `Option`,
fallible functions return `Except`/`Option`, `String` values are modelled
as `String` (manipulated through their underlying `List Char`).
-/

namespace Relayfetch

/-! ## Rust path-name arithmetic

`download_file` computes its temp and sidecar paths with
`file_path.with_extension("tmp")` / `with_extension("meta")`, and
`list_files` skips entries with `path.extension() == Some("meta")`.
The functions below embed the semantics of `std::path::Path::extension` /
`with_extension`: the extension of a path is the portion of its final
component after the last `.`, where a `.` that starts the component does
not count; `with_extension` truncates the old extension before appending
the new one. -/

/-- Index of the last character of `s` satisfying `p`, counting from `i0`. -/
def lastIdxOfAux (p : Char → Bool) : List Char → Nat → Option Nat
  | [], _ => none
  | c :: cs, i =>
    match lastIdxOfAux p cs (i + 1) with
    | some j => some j
    | none => if p c then some i else none

/-- Index of the last character of `s` satisfying `p`. -/
def lastIdxOf (p : Char → Bool) (s : List Char) : Option Nat :=
  lastIdxOfAux p s 0

/-- Start index of the final path component (just after the last `/`). -/
def compStart (s : List Char) : Nat :=
  match lastIdxOf (fun c => c = '/') s with
  | some i => i + 1
  | none => 0

/-- Index of the dot that separates the Rust `file_stem` from the
`extension`, when the path has an extension: the last `.` of the final
component, provided it is not the component's first character. -/
def rustExtDotIdx (s : List Char) : Option Nat :=
  match lastIdxOf (fun c => c = '.') s with
  | some i => if compStart s + 1 ≤ i then some i else none
  | none => none

/-- Rust `Path::extension()` on a path given as a character list. -/
def rustExtension (s : List Char) : Option (List Char) :=
  (rustExtDotIdx s).map (fun i => s.drop (i + 1))

/-- Rust `Path::with_extension(e)` for a non-empty extension `e`:
truncate at the extension dot when there is one, then append `.e`. -/
def rustWithExtension (s : List Char) (e : List Char) : List Char :=
  match rustExtDotIdx s with
  | some i => s.take i ++ ('.' :: e)
  | none => s ++ ('.' :: e)

/-- `PathBuf::join` for a relative second component. -/
def joinPath (dir file : List Char) : List Char :=
  dir ++ '/' :: file

/-- `T`: the temp path used by `download_file`
(`file_path.with_extension("tmp")` on `dir.join(file)`). -/
def tmpPath (dir file : String) : String :=
  ⟨rustWithExtension (joinPath dir.data file.data) ['t', 'm', 'p']⟩

/-- `M`: the sidecar path used by `download_file`
(`file_path.with_extension("meta")` on `dir.join(file)`). -/
def metaPath (dir file : String) : String :=
  ⟨rustWithExtension (joinPath dir.data file.data) ['m', 'e', 't', 'a']⟩

/-! ## Metadata sidecar (`src/sync/meta/mod.rs`) -/

/-- The `Meta` sidecar record: cache validators and the completed size of
the mirrored payload.  `total_size: Option<u64>` is modelled as
`Option Nat`. -/
structure Meta where
  etag : Option String
  last_modified : Option String
  fetched_at : Option String
  total_size : Option Nat
  deriving Repr, DecidableEq

/-- `Meta::default()`: every field absent. -/
def Meta.default : Meta :=
  { etag := none, last_modified := none, fetched_at := none, total_size := none }

/-! ## Download engine (`src/sync/mod.rs`, `download_file`)

The engine is embedded as a pure state machine over the three on-disk
objects it touches (payload `P`, temp `T`, sidecar `M`), with the origin
server abstracted as an oracle assigning an `HttpResponse` to the probe
and to each attempt.  Progress events are not tracked here (they are the
subject of the status machine below). -/

/-- Sizes/contents of the three paths `download_file` touches.
`payload`/`tmp` are byte counts, `meta` the decoded sidecar. -/
structure FsState where
  payload : Option Nat
  tmp : Option Nat
  meta : Option Meta
  deriving Repr, DecidableEq

/-- An HTTP response as observed by `download_file`: status code, the
honoured headers, and the body stream (its length in bytes, and whether
it was delivered without a mid-stream error). -/
structure HttpResponse where
  status : Nat
  etag : Option String
  lastModified : Option String
  contentLength : Option Nat
  bodyLen : Nat
  bodyComplete : Bool
  deriving Repr, DecidableEq

/-- Outcome of `download_file`: `Ok(())`, `Err(e)`, or the `unreachable!()`
panic after the attempt loop. -/
inductive DlResult
  | ok
  | err
  | panicked
  deriving Repr, DecidableEq

/-- One attempt of the body-transfer loop of `download_file`
(`src/sync/mod.rs` lines 142–256): reload the sidecar, measure `T`,
send, handle `416` (delete `T` and `M`), reject non-success statuses,
run the strong ETag check on `206` (delete `T`), stream the body into
`T` (append for `206`, truncate otherwise), then rename `T → P` and
persist the new sidecar.  Returns the new filesystem state and whether
the attempt succeeded. -/
def attemptStep (st : FsState) (r : HttpResponse) (now : String) : FsState × Bool :=
  let oldMeta := st.meta.getD Meta.default
  let downloaded := st.tmp.getD 0
  if r.status = 416 then
    ({ st with tmp := none, meta := none }, false)
  else if ¬((200 ≤ r.status ∧ r.status < 300) ∨ r.status = 206) then
    (st, false)
  else if r.status = 206 ∧ oldMeta.etag.isSome ∧ oldMeta.etag ≠ r.etag then
    ({ st with tmp := none }, false)
  else
    let total := if r.status = 206 then r.contentLength.map (· + downloaded) else r.contentLength
    if r.status = 206 ∧ st.tmp = none then
      (st, false)
    else
      let written := if r.status = 206 then downloaded + r.bodyLen else r.bodyLen
      if r.bodyComplete then
        ({ payload := some written, tmp := none,
           meta := some { etag := r.etag, last_modified := r.lastModified,
                          fetched_at := some now, total_size := total } }, true)
      else
        ({ st with tmp := some written }, false)

/-- The attempt loop of `download_file` (`for attempt in 0..max_retry`),
threading the filesystem state through the attempts.  Returns the final
filesystem state, the list of back-off sleeps performed (in
milliseconds, computed as `base_delay * 2u64.pow(attempt)`, hence modulo
`2 ^ 64`), and the outcome; falling out of the loop hits
`unreachable!()`. -/
def dlGoAux (resp : Nat → HttpResponse) (now : String) (m b : Nat) :
    Nat → Nat → FsState → FsState × List Nat × DlResult
  | 0, _, st => (st, [], .panicked)
  | fuel + 1, k, st =>
    let a := attemptStep st (resp k) now
    if a.2 then
      (a.1, [], .ok)
    else if k + 1 < m then
      let r := dlGoAux resp now m b fuel (k + 1) a.1
      (r.1, b * 2 ^ k % 2 ^ 64 :: r.2.1, r.2.2)
    else
      (a.1, [], .err)

/-- Entry into the attempt loop at index `k`: the remaining iteration
budget `m - k` is zero exactly when the loop guard `k < m` fails, i.e.
when control falls out of the loop onto `unreachable!()`. -/
def dlGo (resp : Nat → HttpResponse) (now : String) (m b : Nat) (k : Nat) (st : FsState) :
    FsState × List Nat × DlResult :=
  dlGoAux resp now m b (m - k) k st

/-- The filesystem state after `k` attempts have run (and failed). -/
def loopStates (resp : Nat → HttpResponse) (now : String) (st0 : FsState) : Nat → FsState
  | 0 => st0
  | k + 1 => (attemptStep (loopStates resp now st0 k) (resp k) now).1

/-- Whether attempt `k` succeeds, given that attempts `0..k` all failed. -/
def loopOk (resp : Nat → HttpResponse) (now : String) (st0 : FsState) (k : Nat) : Bool :=
  (attemptStep (loopStates resp now st0 k) (resp k) now).2

/-- Full `download_file`: the freshness probe of phase A (a conditional
GET issued only when the sidecar's `total_size` matches the payload's
size; `304` stamps `fetched_at` and returns success, a success status
falls through to the attempt loop, anything else fails), then the
attempt loop.  `probe` is the response to the conditional GET, `resp k`
the response to attempt `k`. -/
def downloadFile (st : FsState) (probe : HttpResponse) (resp : Nat → HttpResponse)
    (m b : Nat) (now : String) : FsState × List Nat × DlResult :=
  let oldMeta := st.meta.getD Meta.default
  let localSize := st.payload.getD 0
  if oldMeta.total_size = some localSize then
    if probe.status = 304 then
      ({ st with meta := some { oldMeta with fetched_at := some now } }, [], .ok)
    else if (200 ≤ probe.status ∧ probe.status < 300) ∨ probe.status = 206 then
      dlGo resp now m b 0 st
    else
      (st, [], .err)
  else
    dlGo resp now m b 0 st

/-- The condition under which phase A of `download_file` falls through to
the attempt loop (rather than returning early on `304` or failing the
conditional GET). -/
def reachesLoop (st : FsState) (probe : HttpResponse) : Prop :=
  (st.meta.getD Meta.default).total_size ≠ some (st.payload.getD 0) ∨
    ((200 ≤ probe.status ∧ probe.status < 300) ∨ probe.status = 206)

instance (st : FsState) (probe : HttpResponse) : Decidable (reachesLoop st probe) := by
  unfold reachesLoop; infer_instance

/-! ## Sync status machine

`SyncStatus` and `FileProgress` are from `src/sync/mod.rs`.  The status
writers (`ConfigCenter::sync_started/file_started/file_progress/`
`file_finished/file_error/sync_finished`) live in the configuration
center, whose current revision is not part of the sources (the shipped
`src/config/mod.rs` is a stale pre-`failed_files` revision that no longer
matches its callers in `src/sync/mod.rs`); they are modelled from the
spec, §4.3 "Status transitions".  `HashMap<String, FileProgress>` is
modelled as an association list, `SystemTime` as an abstract tick. -/

/-- Per-file progress entry (`src/sync/mod.rs`). -/
structure FileProgress where
  file : String
  downloaded : Nat
  total : Option Nat
  done : Bool
  error : Option String
  deriving Repr, DecidableEq

/-- Overall result of a sync pass (`src/sync/mod.rs`; `PartialSuccess`
is rendered `partSuccess`). -/
inductive SyncResult
  | success
  | partSuccess
  | failed (msg : String)
  | pending
  deriving Repr, DecidableEq

/-- Live sync status (`src/sync/mod.rs`). -/
structure SyncStatus where
  running : Bool
  start_time : Option Nat
  last_sync : Option Nat
  last_ok_sync : Option Nat
  last_result : SyncResult
  total_files : Nat
  finished_files : Nat
  failed_files : Nat
  files : List (String × FileProgress)
  deriving Repr, DecidableEq

/-- The status at daemon startup: created empty, result `Pending`. -/
def initStatus : SyncStatus :=
  { running := false, start_time := none, last_sync := none, last_ok_sync := none
    last_result := .pending, total_files := 0, finished_files := 0, failed_files := 0
    files := [] }

/-- Association-list lookup (the `HashMap::get` of the status map). -/
def lookupEntry (fs : List (String × FileProgress)) (f : String) : Option FileProgress :=
  match fs with
  | [] => none
  | (g, q) :: rest => if g = f then some q else lookupEntry rest f

/-- Association-list insert-or-overwrite (the `HashMap::insert` of the
status map). -/
def setEntry (fs : List (String × FileProgress)) (f : String) (p : FileProgress) :
    List (String × FileProgress) :=
  match fs with
  | [] => [(f, p)]
  | (g, q) :: rest => if g = f then (g, p) :: rest else (g, q) :: setEntry rest f p

/-- Association-list in-place update of an existing entry (the
`HashMap::get_mut` pattern: absent keys are left untouched). -/
def mapEntry (fs : List (String × FileProgress)) (f : String)
    (u : FileProgress → FileProgress) : List (String × FileProgress) :=
  match fs with
  | [] => []
  | (g, q) :: rest => if g = f then (g, u q) :: rest else (g, q) :: mapEntry rest f u

/-- Modelled from the spec (§4.3, missing `ConfigCenter::sync_started`):
sets `running=true`, `start_time=now`, `total_files=total`, clears
`finished_files`, `failed_files` and `files`, sets `last_result=Pending`. -/
def syncStarted (s : SyncStatus) (now : Nat) (total : Nat) : SyncStatus :=
  { s with running := true, start_time := some now, total_files := total
           finished_files := 0, failed_files := 0, files := [], last_result := .pending }

/-- Modelled from the spec (§4.3, missing `ConfigCenter::file_started`):
inserts/overwrites the progress entry. -/
def fileStarted (s : SyncStatus) (f : String) (total : Option Nat) : SyncStatus :=
  let p : FileProgress :=
    { file := f, downloaded := 0, total := total, done := false, error := none }
  { s with files := setEntry s.files f p }

/-- Modelled from the spec (§4.3, missing `ConfigCenter::file_progress`):
updates `downloaded`. -/
def fileProgress (s : SyncStatus) (f : String) (d : Nat) : SyncStatus :=
  { s with files := mapEntry s.files f (fun p => { p with downloaded := d }) }

/-- Modelled from the spec (§4.3, missing `ConfigCenter::file_finished`):
sets `done=true` and increments `finished_files`.  A file finished by the
`304` fast path has no prior `Started` entry; its entry is created here,
which is the reading under which the spec's invariant 1 holds. -/
def fileFinished (s : SyncStatus) (f : String) : SyncStatus :=
  let blank : FileProgress :=
    { file := f, downloaded := 0, total := none, done := true, error := none }
  let fs :=
    match lookupEntry s.files f with
    | some _ => mapEntry s.files f (fun p => { p with done := true })
    | none => s.files ++ [(f, blank)]
  { s with files := fs, finished_files := s.finished_files + 1 }

/-- Modelled from the spec (§4.3, missing `ConfigCenter::file_error`):
records the error (overwriting the entry, as the stale in-repo revision
also does) and increments both `failed_files` and `finished_files`. -/
def fileError (s : SyncStatus) (f : String) (msg : String) : SyncStatus :=
  let p : FileProgress :=
    { file := f, downloaded := 0, total := none, done := true, error := some msg }
  { s with files := setEntry s.files f p
           finished_files := s.finished_files + 1
           failed_files := s.failed_files + 1 }

/-- Modelled from the spec (§4.3): the `Failed` message of
`sync_finished` ("...missing or interrupted..."). -/
def failedMsg : String := "some files are missing or interrupted"

/-- Modelled from the spec (§4.3, missing `ConfigCenter::sync_finished`):
sets `running=false`, `last_sync=now`; classifies `last_result` as
`Success` iff `failed_files == 0 ∧ finished_files == total_files` (also
setting `last_ok_sync=now`), `PartialSuccess` iff `failed_files > 0 ∧
finished_files > 0`, and `Failed(..)` otherwise. -/
def syncFinished (s : SyncStatus) (now : Nat) : SyncStatus :=
  if s.failed_files = 0 ∧ s.finished_files = s.total_files then
    { s with running := false, last_sync := some now
             last_result := .success, last_ok_sync := some now }
  else if 0 < s.failed_files ∧ 0 < s.finished_files then
    { s with running := false, last_sync := some now, last_result := .partSuccess }
  else
    { s with running := false, last_sync := some now, last_result := .failed failedMsg }

/-- The per-file lifecycle events emitted by the download engine
(`FileEvent` in `src/sync/mod.rs`), which `sync_once` forwards 1:1 into
the status writers. -/
inductive FileEvent
  | started (file : String) (total : Option Nat)
  | progress (file : String) (downloaded : Nat)
  | finished (file : String)
  | error (file : String) (msg : String)
  deriving Repr, DecidableEq

/-- The file an event is about. -/
def FileEvent.name : FileEvent → String
  | .started f _ => f
  | .progress f _ => f
  | .finished f => f
  | .error f _ => f

/-- Apply one event's status mutation (the forwarding closure in
`sync_once`). -/
def applyEvent (s : SyncStatus) : FileEvent → SyncStatus
  | .started f total => fileStarted s f total
  | .progress f d => fileProgress s f d
  | .finished f => fileFinished s f
  | .error f msg => fileError s f msg

/-- Run a sequence of events against the status. -/
def runTrace (s : SyncStatus) (es : List FileEvent) : SyncStatus :=
  match es with
  | [] => s
  | e :: rest => runTrace (applyEvent s e) rest

/-- Whether the entry for `f` is already finished. -/
def entryDone (s : SyncStatus) (f : String) : Bool :=
  match lookupEntry s.files f with
  | some p => p.done
  | none => false

/-- The per-file event discipline guaranteed by `download_file` and
`sync_once`: every event concerns a file of the pass's snapshot `F`
(one spawned task per snapshot entry), and no `Started`, `Finished` or
`Error` is emitted for a file whose terminal event has already happened
(each task emits at most one terminal event and returns immediately
after it). -/
def eventEnabled (F : List String) (s : SyncStatus) (e : FileEvent) : Bool :=
  decide (e.name ∈ F) &&
    match e with
    | .progress _ _ => true
    | _ => !entryDone s e.name

/-- A trace is admissible when each of its events is enabled at its
point. -/
def traceOK (F : List String) (s : SyncStatus) (es : List FileEvent) : Bool :=
  match es with
  | [] => true
  | e :: rest => eventEnabled F s e && traceOK F (applyEvent s e) rest

/-- Number of entries marked done. -/
def countDone (fs : List (String × FileProgress)) : Nat :=
  (fs.filter (fun x => x.2.done)).length

/-- Number of entries with a recorded error. -/
def countErr (fs : List (String × FileProgress)) : Nat :=
  (fs.filter (fun x => x.2.error.isSome)).length

/-- Invariant 1 of spec §3: the counters agree with the files map and are
ordered. -/
def statusCountersOK (s : SyncStatus) : Prop :=
  s.finished_files = countDone s.files ∧
    s.failed_files = countErr s.files ∧
    s.failed_files ≤ s.finished_files ∧ s.finished_files ≤ s.total_files

/-- Strengthened inductive invariant for the status machine. -/
def statusInv (F : List String) (s : SyncStatus) : Prop :=
  s.finished_files = countDone s.files ∧
    s.failed_files = countErr s.files ∧
    (s.files.map Prod.fst).Nodup ∧
    (∀ x ∈ s.files, x.1 ∈ F) ∧
    (∀ x ∈ s.files, x.2.error.isSome → x.2.done = true) ∧
    s.total_files = F.length

/-! ## Management core (`src/management/core/mod.rs`)

`update_config` validation and `list_files`.  Filesystem- and
resolver-dependent predicates (`Path::exists`, `Path::is_dir`,
`to_socket_addrs`) are oracles supplied by an environment record. -/

/-- The management core's error taxonomy (`src/management/core/error.rs`). -/
inductive CoreError
  | invalidArgument (msg : String)
  | notFound (msg : String)
  | internal (msg : String)
  deriving Repr, DecidableEq

/-- The runtime configuration fields `update_config` touches
(`Config` in `src/config/mod.rs`). -/
structure Config where
  interval_secs : Nat
  storage_dir : String
  bind : String
  bind_addr : String
  bind_port : Nat
  admin : String
  url : String
  proxy : Option String
  download_concurrency : Nat
  download_retry : Nat
  retry_base_delay_ms : Nat
  deriving Repr, DecidableEq

/-- Partial-update input (`UpdateConfigInput` in
`src/management/core/dto.rs`); `proxy` is tri-state. -/
structure UpdateConfigInput where
  interval_secs : Option Nat
  storage_dir : Option String
  url : Option String
  bind : Option String
  admin : Option String
  proxy : Option (Option String)
  download_concurrency : Option Nat
  download_retry : Option Nat
  retry_base_delay_ms : Option Nat
  deriving Repr, DecidableEq

/-- The all-absent input (no field supplied). -/
def UpdateConfigInput.empty : UpdateConfigInput :=
  { interval_secs := none, storage_dir := none, url := none, bind := none, admin := none
    proxy := none, download_concurrency := none, download_retry := none
    retry_base_delay_ms := none }

/-- Environment oracles for the filesystem- and resolver-dependent
checks of `update_config`. -/
structure SysEnv where
  pathExists : String → Bool
  isDir : String → Bool
  validSocketAddr : String → Bool

/-- `Path::is_absolute` (unix): the path starts with `/`. -/
def isAbsolutePath (s : String) : Bool :=
  s.data.head? = some '/'

/-- Does `hay` start with `pre`? (`str::starts_with`.) -/
def startsWithChars : List Char → List Char → Bool
  | _, [] => true
  | [], _ :: _ => false
  | c :: cs, d :: ds => c = d && startsWithChars cs ds

/-- Does `hay` contain `needle` as a contiguous substring?
(`str::contains`.) -/
def containsSub : List Char → List Char → Bool
  | [], needle => needle.isEmpty
  | c :: rest, needle => startsWithChars (c :: rest) needle || containsSub rest needle

/-- `str::split("://")`: split on the scheme separator. -/
def splitOnScheme : List Char → List (List Char)
  | [] => [[]]
  | ':' :: '/' :: '/' :: rest => [] :: splitOnScheme rest
  | c :: rest =>
    match splitOnScheme rest with
    | [] => [[c]]
    | p :: ps => (c :: p) :: ps

/-- `update_config` check 1: `interval_secs ≥ 100`. -/
def checkInterval (input : UpdateConfigInput) : Option CoreError :=
  match input.interval_secs with
  | some v => if v < 100 then some (.invalidArgument "interval_secs must be >= 100") else none
  | none => none

/-- `update_config` check 2: `storage_dir` absolute and not an existing
non-directory. -/
def checkStorageDir (env : SysEnv) (input : UpdateConfigInput) : Option CoreError :=
  match input.storage_dir with
  | some d =>
    if ¬isAbsolutePath d then some (.invalidArgument "storage_dir must be absolute")
    else if env.pathExists d ∧ ¬env.isDir d then
      some (.invalidArgument "storage_dir exists but is not a directory")
    else none
  | none => none

/-- `update_config` check 3: `url` is a bare host (non-empty, no scheme,
no `/`, no spaces). -/
def checkUrl (input : UpdateConfigInput) : Option CoreError :=
  match input.url with
  | some u =>
    if u = "" ∨ containsSub u.data [':', '/', '/'] ∨ u.data.contains '/' ∨ u.data.contains ' '
    then some (.invalidArgument "url must be a valid host or ip")
    else none
  | none => none

/-- `update_config` check 4: `bind` resolves as a socket address. -/
def checkBind (env : SysEnv) (input : UpdateConfigInput) : Option CoreError :=
  match input.bind with
  | some b =>
    if ¬env.validSocketAddr b then some (.invalidArgument "bind must be valid socket addr")
    else none
  | none => none

/-- `update_config` check 5: `admin` resolves as a socket address. -/
def checkAdmin (env : SysEnv) (input : UpdateConfigInput) : Option CoreError :=
  match input.admin with
  | some a =>
    if ¬env.validSocketAddr a then some (.invalidArgument "admin must be valid socket addr")
    else none
  | none => none

/-- `update_config` check 6: a supplied, non-cleared `proxy` has exactly
one `://`, a scheme among http/https/socks5, and a port separator. -/
def checkProxy (input : UpdateConfigInput) : Option CoreError :=
  match input.proxy with
  | some (some p) =>
    match splitOnScheme p.data with
    | [scheme, addr] =>
      if ¬(scheme = "http".data ∨ scheme = "https".data ∨ scheme = "socks5".data) then
        some (.invalidArgument "proxy scheme must be http/https/socks5")
      else if ¬addr.contains ':' then some (.invalidArgument "proxy must include port")
      else none
    | _ => some (.invalidArgument "proxy must include scheme")
  | _ => none

/-- `update_config` check 7: `download_concurrency` in `1..=64`. -/
def checkConcurrency (input : UpdateConfigInput) : Option CoreError :=
  match input.download_concurrency with
  | some c =>
    if ¬(1 ≤ c ∧ c ≤ 64) then some (.invalidArgument "download_concurrency must be 1..=64")
    else none
  | none => none

/-- `update_config` check 8: `download_retry ≤ 10`. -/
def checkRetry (input : UpdateConfigInput) : Option CoreError :=
  match input.download_retry with
  | some r => if r > 10 then some (.invalidArgument "download_retry must <= 10") else none
  | none => none

/-- `update_config` check 9: `retry_base_delay_ms` in `10..=60000`. -/
def checkDelay (input : UpdateConfigInput) : Option CoreError :=
  match input.retry_base_delay_ms with
  | some d =>
    if ¬(10 ≤ d ∧ d ≤ 60000) then some (.invalidArgument "retry_base_delay_ms out of range")
    else none
  | none => none

/-- The mutator closure passed to `ConfigCenter::update_config`: apply
every supplied field to a clone of the config. -/
def applyConfigUpdate (cfg : Config) (input : UpdateConfigInput) : Config :=
  { cfg with
    interval_secs := input.interval_secs.getD cfg.interval_secs
    storage_dir := input.storage_dir.getD cfg.storage_dir
    url := input.url.getD cfg.url
    bind := input.bind.getD cfg.bind
    admin := input.admin.getD cfg.admin
    proxy := input.proxy.getD cfg.proxy
    download_concurrency := input.download_concurrency.getD cfg.download_concurrency
    download_retry := input.download_retry.getD cfg.download_retry
    retry_base_delay_ms := input.retry_base_delay_ms.getD cfg.retry_base_delay_ms }

/-- `ManagementCore::update_config`: run the nine validation checks in
source order, each early-returning `InvalidArgument`; only when all pass
is the mutation applied (and persisted) — an error leaves the in-memory
config untouched. -/
def updateConfig (env : SysEnv) (cfg : Config) (input : UpdateConfigInput) :
    Except CoreError Config :=
  match checkInterval input with
  | some e => .error e
  | none =>
  match checkStorageDir env input with
  | some e => .error e
  | none =>
  match checkUrl input with
  | some e => .error e
  | none =>
  match checkBind env input with
  | some e => .error e
  | none =>
  match checkAdmin env input with
  | some e => .error e
  | none =>
  match checkProxy input with
  | some e => .error e
  | none =>
  match checkConcurrency input with
  | some e => .error e
  | none =>
  match checkRetry input with
  | some e => .error e
  | none =>
  match checkDelay input with
  | some e => .error e
  | none => .ok (applyConfigUpdate cfg input)

/-- A supplied `proxy` value violating the §3 proxy shape. -/
def badProxy (p : String) : Bool :=
  match splitOnScheme p.data with
  | [scheme, addr] =>
    !(scheme = "http".data ∨ scheme = "https".data ∨ scheme = "socks5".data : Bool) ||
      !addr.contains ':'
  | _ => true

/-- Some supplied field of the input violates the §3 bounds. -/
def violatesBounds (env : SysEnv) (input : UpdateConfigInput) : Prop :=
  (∃ v, input.interval_secs = some v ∧ v < 100) ∨
  (∃ d, input.storage_dir = some d ∧
    (¬isAbsolutePath d = true ∨ (env.pathExists d = true ∧ ¬env.isDir d = true))) ∨
  (∃ u, input.url = some u ∧
    (u = "" ∨ containsSub u.data [':', '/', '/'] = true ∨
      u.data.contains '/' = true ∨ u.data.contains ' ' = true)) ∨
  (∃ p, input.proxy = some (some p) ∧ badProxy p = true) ∨
  (∃ c, input.download_concurrency = some c ∧ ¬(1 ≤ c ∧ c ≤ 64)) ∨
  (∃ r, input.download_retry = some r ∧ r > 10) ∨
  (∃ d, input.retry_base_delay_ms = some d ∧ ¬(10 ≤ d ∧ d ≤ 60000))

/-! ## `list_files` (`src/management/core/mod.rs`)

The recursive walk of `storage_dir` is abstracted as the sequence of
regular files it yields, in traversal order; the per-entry
`read_file_timestamp` resolution is part of each entry. -/

/-- One regular file yielded by the walk: its file name, its path
relative to `storage_dir` (separators already normalised to `/`), and
the timestamp `read_file_timestamp` resolves for it, when any. -/
structure WalkEntry where
  name : String
  relPath : String
  timestamp : Option String
  deriving Repr, DecidableEq

/-- `FileInfoDto` (`src/management/core/dto.rs`). -/
structure FileInfoDto where
  filename : String
  url : String
  last_modified : String
  deriving Repr, DecidableEq

/-- The `FileInfoDto` built for one walked entry. -/
def mkFileInfo (base : String) (e : WalkEntry) : FileInfoDto :=
  { filename := e.name
    url := base ++ "/" ++ e.relPath
    last_modified := e.timestamp.getD "unknown" }

/-- The skip test of `list_files`:
`path.extension().and_then(to_str) == Some("meta")`. -/
def isMetaEntry (e : WalkEntry) : Bool :=
  rustExtension e.name.data = some ['m', 'e', 't', 'a']

/-- The push loop of `list_files`: skip entries whose extension is
`meta`, push a `FileInfoDto` for the rest. -/
def listFilesLoop (base : String) (acc : List FileInfoDto) :
    List WalkEntry → List FileInfoDto
  | [] => acc
  | e :: rest =>
    if isMetaEntry e then
      listFilesLoop base acc rest
    else
      listFilesLoop base (acc ++ [mkFileInfo base e]) rest

/-- `ManagementCore::list_files` over a walk sequence, with
`base = "http://{url}:{bind_port}"`. -/
def listFiles (url : String) (bindPort : Nat) (walk : List WalkEntry) : List FileInfoDto :=
  listFilesLoop ("http://" ++ url ++ ":" ++ toString bindPort) [] walk

/-- Lexicographic comparison of filenames (the `str::cmp` order Rust's
sort uses). -/
def charListLe : List Char → List Char → Bool
  | [], _ => true
  | _ :: _, [] => false
  | c :: cs, d :: ds => if c = d then charListLe cs ds else decide (c < d)

/-- Sortedness by filename (the ordering the spec promises for
`list_files`). -/
def sortedByFilename (l : List FileInfoDto) : Prop :=
  List.Pairwise (fun a b => charListLe a.filename.data b.filename.data = true) l

instance (l : List FileInfoDto) : Decidable (sortedByFilename l) :=
  List.instDecidablePairwise l

/-! ## Scheduler / trigger interleaving

The periodic scheduler (spec §4.5; its current `main.rs` is not among
the sources) wraps each pass in a 1-permit semaphore.
`ManagementCore::trigger_sync` (`src/management/core/mod.rs`, in the
sources) calls `sync_once` directly, without acquiring any semaphore.
Each entry point is embedded as a straight-line list of atomic actions,
and the two tasks are interleaved by an explicit scheduler; `active`
counts the sync passes currently running. -/

/-- Atomic actions of a sync entry point: semaphore operations and the
start/end of a `sync_once` pass. -/
inductive LockAction
  | acquire
  | release
  | syncBegin
  | syncEnd
  deriving Repr, DecidableEq

/-- Joint state of two tasks: their program counters, the 1-permit
semaphore (`true` = permit free), and the number of active passes. -/
structure LockState where
  pc0 : Nat
  pc1 : Nat
  sem : Bool
  active : Nat
  deriving Repr, DecidableEq

/-- Effect of one action: `none` when the action blocks (acquire with no
permit) or the task is done. -/
def stepTask (t : List LockAction) (pc : Nat) (sem : Bool) (active : Nat) :
    Option (Bool × Nat) :=
  match t.get? pc with
  | none => none
  | some .acquire => if sem then some (false, active) else none
  | some .release => some (true, active)
  | some .syncBegin => some (sem, active + 1)
  | some .syncEnd => some (sem, active - 1)

/-- Run whichever task the scheduler picks (`false` = task 0). -/
def stepSys (t0 t1 : List LockAction) (s : LockState) (pick : Bool) : Option LockState :=
  if pick then
    match stepTask t1 s.pc1 s.sem s.active with
    | some (sem, act) => some { s with pc1 := s.pc1 + 1, sem := sem, active := act }
    | none => none
  else
    match stepTask t0 s.pc0 s.sem s.active with
    | some (sem, act) => some { s with pc0 := s.pc0 + 1, sem := sem, active := act }
    | none => none

/-- Run a whole schedule; `none` when some pick blocks. -/
def runSched (t0 t1 : List LockAction) (s : LockState) : List Bool → Option LockState
  | [] => some s
  | pick :: rest =>
    match stepSys t0 t1 s pick with
    | some s2 => runSched t0 t1 s2 rest
    | none => none

/-- Initial joint state: both tasks at their first action, permit free,
no pass running. -/
def initLock : LockState :=
  { pc0 := 0, pc1 := 0, sem := true, active := 0 }

/-- Modelled from the spec (§4.5, missing current `main.rs`): one
scheduler iteration — acquire the 1-permit semaphore, run the pass,
release. -/
def schedTask : List LockAction :=
  [.acquire, .syncBegin, .syncEnd, .release]

/-- `ManagementCore::trigger_sync` (`src/management/core/mod.rs`): run
`sync_once` directly; no semaphore is touched. -/
def triggerTask : List LockAction :=
  [.syncBegin, .syncEnd]

/-- Number of `schedTask` copies currently holding the permit (program
counter strictly between `acquire` and after `release`). -/
def holdCount (s : LockState) : Nat :=
  (if 1 ≤ s.pc0 ∧ s.pc0 ≤ 3 then 1 else 0) + (if 1 ≤ s.pc1 ∧ s.pc1 ≤ 3 then 1 else 0)

/-- Number of `schedTask` copies currently inside their pass. -/
def critCount (s : LockState) : Nat :=
  (if s.pc0 = 2 then 1 else 0) + (if s.pc1 = 2 then 1 else 0)

/-- Inductive invariant of two interleaved `schedTask` copies. -/
def schedInv (s : LockState) : Prop :=
  s.pc0 ≤ 4 ∧ s.pc1 ≤ 4 ∧ s.active = critCount s ∧
    holdCount s = (if s.sem then 0 else 1)

/-- Boolean form of `schedInv`, for finite-state checking. -/
def schedInvB (s : LockState) : Bool :=
  decide (s.pc0 ≤ 4) && decide (s.pc1 ≤ 4) && decide (s.active = critCount s) &&
    decide (holdCount s = (if s.sem then 0 else 1))

/-- One-step preservation of `schedInvB` from a given configuration of
the two-scheduler system (blocked steps preserve vacuously). -/
def stepPreserves (p0 p1 : Nat) (sm : Bool) (ac : Nat) (pick : Bool) : Bool :=
  !schedInvB ⟨p0, p1, sm, ac⟩ ||
    match stepSys schedTask schedTask ⟨p0, p1, sm, ac⟩ pick with
    | none => true
    | some s2 => schedInvB s2

/-! ## Metadata codec (`src/sync/meta/mod.rs`)

`save_meta` serialises a `Meta` with `toml::to_string` and `load_meta`
parses it back (absent file ⇒ `Meta::default()`).  The text layer is the
`toml` crate; the embedding below reproduces the TOML fragment it emits
for a `Meta` value — one `key = value` line per present field, in struct
order, with strings as basic strings (`"` and `\` and control characters
escaped) and `total_size` as a decimal integer — together with a parser
for that fragment. -/

/-- Upper-case hex digit for `n < 16`. -/
def hexDigitOf (n : Nat) : Char :=
  Char.ofNat (if n < 10 then 48 + n else 55 + n)

/-- TOML basic-string escape of one character. -/
def escChar (c : Char) : List Char :=
  if c = '"' then ['\\', '"']
  else if c = '\\' then ['\\', '\\']
  else if c = Char.ofNat 8 then ['\\', 'b']
  else if c = '\t' then ['\\', 't']
  else if c = '\n' then ['\\', 'n']
  else if c = Char.ofNat 12 then ['\\', 'f']
  else if c = '\r' then ['\\', 'r']
  else if c.toNat < 32 ∨ c.toNat = 127 then
    ['\\', 'u', '0', '0', hexDigitOf (c.toNat / 16), hexDigitOf (c.toNat % 16)]
  else [c]

/-- TOML basic-string escape of a string body. -/
def escStr : List Char → List Char
  | [] => []
  | c :: cs => escChar c ++ escStr cs

/-- Decimal digit character. -/
def decDigitOf (d : Nat) : Char :=
  Char.ofNat (48 + d)

/-- Decimal rendering, recursing on a fuel bound (`fuel > n` holds at
every call from `natToChars`, so the `fuel = 0` case is never taken). -/
def natToCharsAux : Nat → Nat → List Char
  | 0, _ => []
  | fuel + 1, n =>
    if n < 10 then [decDigitOf n] else natToCharsAux fuel (n / 10) ++ [decDigitOf (n % 10)]

/-- Decimal rendering of a natural number (most significant digit
first). -/
def natToChars (n : Nat) : List Char :=
  natToCharsAux (n + 1) n

/-- `"etag = "`. -/
def etagKey : List Char := "etag = ".data

/-- `"last_modified = "`. -/
def lastModifiedKey : List Char := "last_modified = ".data

/-- `"fetched_at = "`. -/
def fetchedAtKey : List Char := "fetched_at = ".data

/-- `"total_size = "`. -/
def totalSizeKey : List Char := "total_size = ".data

/-- One optional string field as emitted by `toml::to_string`: no line
when absent, the line `key = "escaped"` when present. -/
def strFieldLine (key : List Char) (v : Option String) : List (List Char) :=
  match v with
  | some s => [key ++ '"' :: (escStr s.data ++ ['"'])]
  | none => []

/-- One optional integer field as emitted by `toml::to_string`. -/
def natFieldLine (key : List Char) (v : Option Nat) : List (List Char) :=
  match v with
  | some n => [key ++ natToChars n]
  | none => []

/-- The `key = value` lines `toml::to_string` produces for a `Meta`, in
struct order, one per present field. -/
def metaLines (m : Meta) : List (List Char) :=
  strFieldLine etagKey m.etag ++ strFieldLine lastModifiedKey m.last_modified ++
    strFieldLine fetchedAtKey m.fetched_at ++ natFieldLine totalSizeKey m.total_size

/-- Terminate every line with a newline and concatenate. -/
def joinLines : List (List Char) → List Char
  | [] => []
  | l :: ls => l ++ '\n' :: joinLines ls

/-- The TOML document `toml::to_string` produces for a `Meta`
(`save_meta`'s file content). -/
def encodeMeta (m : Meta) : List Char :=
  joinLines (metaLines m)

/-- Value of a hex digit character. -/
def hexVal (c : Char) : Option Nat :=
  let n := c.toNat
  if 48 ≤ n ∧ n ≤ 57 then some (n - 48)
  else if 65 ≤ n ∧ n ≤ 70 then some (n - 55)
  else if 97 ≤ n ∧ n ≤ 102 then some (n - 87)
  else none

/-- Single-character escape codes of TOML basic strings. -/
def unescCode (d : Char) : Option Char :=
  if d = '"' then some '"'
  else if d = '\\' then some '\\'
  else if d = 'b' then some (Char.ofNat 8)
  else if d = 't' then some '\t'
  else if d = 'n' then some '\n'
  else if d = 'f' then some (Char.ofNat 12)
  else if d = 'r' then some '\r'
  else none

/-- Parse the body of a TOML basic string up to its closing quote;
returns the decoded body and the input past the quote. -/
def parseStrAux : List Char → Option (List Char × List Char)
  | [] => none
  | c :: rest =>
    if c = '"' then some ([], rest)
    else if c = '\\' then
      match rest with
      | 'u' :: h1 :: h2 :: h3 :: h4 :: r2 =>
        match hexVal h1, hexVal h2, hexVal h3, hexVal h4, parseStrAux r2 with
        | some a, some b, some c2, some d, some (s, r3) =>
          some (Char.ofNat (((a * 16 + b) * 16 + c2) * 16 + d) :: s, r3)
        | _, _, _, _, _ => none
      | d :: r2 =>
        match unescCode d, parseStrAux r2 with
        | some ch, some (s, r3) => some (ch :: s, r3)
        | _, _ => none
      | [] => none
    else
      match parseStrAux rest with
      | some (s, r2) => some (c :: s, r2)
      | none => none

/-- Parse a whole basic-string value (quote to quote, consuming the
entire input). -/
def parseStrValue (v : List Char) : Option (List Char) :=
  match v with
  | '"' :: r =>
    match parseStrAux r with
    | some (s, []) => some s
    | _ => none
  | _ => none

/-- Decimal digit value. -/
def digitVal (c : Char) : Option Nat :=
  let n := c.toNat
  if 48 ≤ n ∧ n ≤ 57 then some (n - 48) else none

/-- Accumulate decimal digits. -/
def parseNatGo : List Char → Nat → Option Nat
  | [], acc => some acc
  | c :: r, acc =>
    match digitVal c with
    | some d => parseNatGo r (acc * 10 + d)
    | none => none

/-- Parse a non-empty all-digits decimal value. -/
def parseNat (s : List Char) : Option Nat :=
  match s with
  | [] => none
  | _ => parseNatGo s 0

/-- Parse one `key = value` line into a field update. -/
def parseLine (l : List Char) : Option (Meta → Meta) :=
  if startsWithChars l etagKey then
    (parseStrValue (l.drop etagKey.length)).map
      (fun s m => { m with etag := some ⟨s⟩ })
  else if startsWithChars l lastModifiedKey then
    (parseStrValue (l.drop lastModifiedKey.length)).map
      (fun s m => { m with last_modified := some ⟨s⟩ })
  else if startsWithChars l fetchedAtKey then
    (parseStrValue (l.drop fetchedAtKey.length)).map
      (fun s m => { m with fetched_at := some ⟨s⟩ })
  else if startsWithChars l totalSizeKey then
    (parseNat (l.drop totalSizeKey.length)).map
      (fun n m => { m with total_size := some n })
  else none

/-- Split a document on newlines (like `str::split('\n')`: a trailing
newline yields a final empty part). -/
def splitNl : List Char → List (List Char)
  | [] => [[]]
  | c :: r =>
    if c = '\n' then [] :: splitNl r
    else
      match splitNl r with
      | [] => [[c]]
      | p :: ps => (c :: p) :: ps

/-- Fold the parsed lines over a `Meta` under construction; blank lines
are skipped, unparseable lines fail the whole parse. -/
def decodeLines : List (List Char) → Meta → Option Meta
  | [], m => some m
  | l :: ls, m =>
    if l = [] then decodeLines ls m
    else
      match parseLine l with
      | some upd => decodeLines ls (upd m)
      | none => none

/-- `toml::from_str` on the fragment `save_meta` emits. -/
def decodeMeta (s : List Char) : Option Meta :=
  decodeLines (splitNl s) Meta.default

/-- `save_meta(path, meta)`: overwrite `path` with the serialised
document (the filesystem is a map from paths to file contents). -/
def saveMeta (fsys : String → Option (List Char)) (p : String) (m : Meta) :
    String → Option (List Char) :=
  fun q => if q = p then some (encodeMeta m) else fsys q

/-- `load_meta(path)`: default when the file is absent, parse
otherwise (`none` models the `Err` of a malformed document). -/
def loadMeta (fsys : String → Option (List Char)) (p : String) : Option Meta :=
  match fsys p with
  | some content => decodeMeta content
  | none => some Meta.default

/-! ## Theorems -/

theorem lastIdxOfAux_bound (p : Char → Bool) :
    ∀ (s : List Char) (i j : Nat), lastIdxOfAux p s i = some j → i ≤ j ∧ j < i + s.length := by
  intro s
  induction s with
  | nil => intro i j h; simp [lastIdxOfAux] at h
  | cons c cs ih =>
    intro i j h
    unfold lastIdxOfAux at h
    cases h1 : lastIdxOfAux p cs (i + 1) with
    | some j2 =>
      rw [h1] at h
      have hj : j = j2 := by
        cases h
        rfl
      subst hj
      have := ih (i + 1) j h1
      simp only [List.length_cons]
      omega
    | none =>
      rw [h1] at h
      by_cases hp : p c
      · simp [hp] at h
        simp only [List.length_cons]
        omega
      · simp [hp] at h

theorem rustExtDotIdx_lt (s : List Char) (i : Nat) (h : rustExtDotIdx s = some i) :
    i < s.length := by
  unfold rustExtDotIdx at h
  cases h1 : lastIdxOf (fun c => c = '.') s with
  | none => rw [h1] at h; exact absurd h (by simp)
  | some j =>
    rw [h1] at h
    by_cases hc : compStart s + 1 ≤ j
    · simp [hc] at h
      subst h
      have := (lastIdxOfAux_bound _ s 0 j h1).2
      omega
    · simp [hc] at h

theorem rustWithExtension_append_iff (s e : List Char) :
    rustWithExtension s e = s ++ '.' :: e ↔ rustExtDotIdx s = none := by
  constructor
  · intro h
    cases hx : rustExtDotIdx s with
    | none => rfl
    | some i =>
      exfalso
      have hi := rustExtDotIdx_lt s i hx
      unfold rustWithExtension at h
      rw [hx] at h
      have hlen := congrArg List.length h
      simp only [List.length_append, List.length_cons, List.length_take] at hlen
      omega
  · intro h
    unfold rustWithExtension
    rw [h]

/-- C3: the spec claims `T = dir/filename + ".tmp"` and
`M = dir/filename + ".meta"` for all filenames, in particular that
`"a.bin"` yields `"a.bin.tmp"` / `"a.bin.meta"`.  The code instead uses
`Path::with_extension`, which replaces an existing extension:
`"a.bin"` yields `"a.tmp"` / `"a.meta"`. -/
theorem spec_C3_counterexample :
    tmpPath "/data" "a.bin" = "/data/a.tmp" ∧
      metaPath "/data" "a.bin" = "/data/a.meta" ∧
      tmpPath "/data" "a.bin" ≠ "/data/a.bin.tmp" ∧
      metaPath "/data" "a.bin" ≠ "/data/a.bin.meta" :=
  ⟨by decide, by decide, by decide, by decide⟩

/-- C3 (amended): `download_file` derives `T` and `M` with
`with_extension`, so the suffix is appended to the complete filename
exactly when `dir/filename` has no extension; when the filename already
has an extension the suffix replaces it. -/
theorem spec_C3 (dir file : String) :
    (tmpPath dir file = dir ++ "/" ++ file ++ ".tmp" ↔
      rustExtDotIdx (joinPath dir.data file.data) = none) ∧
    (metaPath dir file = dir ++ "/" ++ file ++ ".meta" ↔
      rustExtDotIdx (joinPath dir.data file.data) = none) := by
  have hjoin : ∀ (suf : String),
      (dir ++ "/" ++ file ++ suf).data = joinPath dir.data file.data ++ suf.data := by
    intro suf
    simp [joinPath, String.data_append]
  constructor
  · rw [String.ext_iff, tmpPath, hjoin ".tmp"]
    exact rustWithExtension_append_iff (joinPath dir.data file.data) ['t', 'm', 'p']
  · rw [String.ext_iff, metaPath, hjoin ".meta"]
    exact rustWithExtension_append_iff (joinPath dir.data file.data) ['m', 'e', 't', 'a']

/-- C4: within one attempt, a `416` response deletes both `T` and `M`
and fails the attempt; a `206` response whose ETag differs from a
present stored `M.etag` deletes `T` (but not `M`) and fails the attempt;
in both cases the payload is untouched (no rename happens). -/
theorem spec_C4 (st : FsState) (r : HttpResponse) (now : String) :
    (r.status = 416 →
      attemptStep st r now = ({ st with tmp := none, meta := none }, false)) ∧
    (r.status = 206 → (st.meta.getD Meta.default).etag.isSome = true →
      (st.meta.getD Meta.default).etag ≠ r.etag →
      attemptStep st r now = ({ st with tmp := none }, false)) := by
  constructor
  · intro h416
    unfold attemptStep
    simp [h416]
  · intro h206 hsome hne
    unfold attemptStep
    simp [h206, hsome, hne]

/-- C4 witness: both branches at concrete inputs. -/
theorem spec_C4_witness :
    (attemptStep ⟨some 7, some 3, some ⟨some "v1", none, none, some 10⟩⟩
        ⟨416, none, none, none, 0, true⟩ "t" =
      ({ payload := some 7, tmp := none, meta := none }, false)) ∧
    (attemptStep ⟨some 7, some 3, some ⟨some "v1", none, none, some 10⟩⟩
        ⟨206, some "v2", none, some 7, 7, true⟩ "t" =
      ({ payload := some 7, tmp := none,
         meta := some ⟨some "v1", none, none, some 10⟩ }, false)) :=
  ⟨(spec_C4 ⟨some 7, some 3, some ⟨some "v1", none, none, some 10⟩⟩
      ⟨416, none, none, none, 0, true⟩ "t").1 rfl,
   (spec_C4 ⟨some 7, some 3, some ⟨some "v1", none, none, some 10⟩⟩
      ⟨206, some "v2", none, some 7, 7, true⟩ "t").2 rfl (by decide) (by decide)⟩

theorem loopStates_succ (resp : Nat → HttpResponse) (now : String) (st0 : FsState) (k : Nat) :
    (attemptStep (loopStates resp now st0 k) (resp k) now).1 = loopStates resp now st0 (k + 1) :=
  rfl

theorem dlGoAux_spec (resp : Nat → HttpResponse) (now : String) (m b : Nat) (st0 : FsState) :
    ∀ (fuel k : Nat), fuel = m - k → k < m →
      dlGoAux resp now m b fuel k (loopStates resp now st0 k) =
        match (List.range' k (m - k)).find? (loopOk resp now st0) with
        | some j =>
          (loopStates resp now st0 (j + 1),
            (List.range' k (j - k)).map (fun i => b * 2 ^ i % 2 ^ 64), .ok)
        | none =>
          (loopStates resp now st0 m,
            (List.range' k (m - 1 - k)).map (fun i => b * 2 ^ i % 2 ^ 64), .err) := by
  intro fuel
  induction fuel with
  | zero => intro k hfuel hk; omega
  | succ fuel ih =>
    intro k hfuel hk
    have hrange : List.range' k (m - k) = k :: List.range' (k + 1) (m - (k + 1)) := by
      have h1 : m - k = (m - (k + 1)) + 1 := by omega
      rw [h1, List.range'_succ k (m - (k + 1)) 1]
    rw [hrange]
    unfold dlGoAux
    simp only [loopStates_succ, loopOk]
    cases hok : (attemptStep (loopStates resp now st0 k) (resp k) now).2 with
    | true =>
      rw [List.find?_cons_of_pos _ (by simp [loopOk, hok])]
      simp [hok, loopStates_succ]
    | false =>
      rw [List.find?_cons_of_neg _ (by simp [loopOk, hok])]
      simp only [hok, Bool.false_eq_true, if_false]
      by_cases hk2 : k + 1 < m
      · have hrec := ih (k + 1) (by omega) hk2
        simp only [hk2, if_true, hrec]
        cases hfind : (List.range' (k + 1) (m - (k + 1))).find? (loopOk resp now st0) with
        | some j =>
          have hj : k + 1 ≤ j :=
            (List.mem_range'_1.mp (List.mem_of_find?_eq_some hfind)).1
          have hr2 : List.range' k (j - k) = k :: List.range' (k + 1) (j - (k + 1)) := by
            have he : j - k = (j - (k + 1)) + 1 := by omega
            rw [he, List.range'_succ k (j - (k + 1)) 1]
          simp [hfind, hr2]
        | none =>
          have hr2 : List.range' k (m - 1 - k) = k :: List.range' (k + 1) (m - 1 - (k + 1)) := by
            have he : m - 1 - k = (m - 1 - (k + 1)) + 1 := by omega
            rw [he, List.range'_succ k (m - 1 - (k + 1)) 1]
          simp [hfind, hr2]
      · have hr0 : m - (k + 1) = 0 := by omega
        have hr1 : m - 1 - k = 0 := by omega
        have hkm : m = k + 1 := by omega
        rw [hr0, hr1]
        simp [hk2, List.range', hkm]

/-- C5: the attempt loop of `download_file` makes at most `max_retry`
attempts; when the first success is attempt `j`, it has slept exactly
`base_delay_ms * 2 ^ k` after each failed attempt `k < j` and stops with
`Ok` (no sleep after success); when all `max_retry` attempts fail it
sleeps after every failed attempt but the last, and returns the error
without sleeping (sleeps exactly for `k < max_retry - 1`).  The delay
is a `u64` product, so the stated exact form assumes no 64-bit
overflow, which the validated configuration bounds guarantee. -/
theorem spec_C5 (resp : Nat → HttpResponse) (now : String) (st0 : FsState) (m b : Nat)
    (h1 : 1 ≤ m) (h2 : ∀ k, k < m → b * 2 ^ k < 2 ^ 64) :
    dlGo resp now m b 0 st0 =
      match (List.range m).find? (loopOk resp now st0) with
      | some j =>
        (loopStates resp now st0 (j + 1), (List.range j).map (fun i => b * 2 ^ i), .ok)
      | none =>
        (loopStates resp now st0 m, (List.range (m - 1)).map (fun i => b * 2 ^ i), .err) := by
  have h0 := dlGoAux_spec resp now m b st0 (m - 0) 0 rfl (by omega)
  have hst : loopStates resp now st0 0 = st0 := rfl
  rw [hst] at h0
  simp only [Nat.sub_zero] at h0
  unfold dlGo
  simp only [Nat.sub_zero]
  rw [h0, List.range_eq_range' m, List.range_eq_range' (m - 1)]
  cases hfind : (List.range' 0 m).find? (loopOk resp now st0) with
  | some j =>
    have hj : j < m := by
      have := (List.mem_range'_1.mp (List.mem_of_find?_eq_some hfind)).2
      omega
    have hmap : (List.range' 0 j).map (fun i => b * 2 ^ i % 2 ^ 64) =
        (List.range j).map (fun i => b * 2 ^ i) := by
      rw [List.range_eq_range' j]
      apply List.map_congr_left
      intro i hi
      have hij : i < j := by
        have := (List.mem_range'_1.mp hi).2
        omega
      exact Nat.mod_eq_of_lt (h2 i (by omega))
    simp only [hmap]
  | none =>
    have hmap : (List.range' 0 (m - 1)).map (fun i => b * 2 ^ i % 2 ^ 64) =
        (List.range' 0 (m - 1)).map (fun i => b * 2 ^ i) := by
      apply List.map_congr_left
      intro i hi
      have him : i < m - 1 := by
        have := (List.mem_range'_1.mp hi).2
        omega
      exact Nat.mod_eq_of_lt (h2 i (by omega))
    simp only [hmap]

/-- C5 witness: three attempts, the first two failing with `503`, the
third succeeding: sleeps `[100, 200]`, result `Ok`. -/
theorem spec_C5_witness :
    dlGo (fun k => if k < 2 then ⟨503, none, none, none, 0, true⟩
        else ⟨200, none, none, some 5, 5, true⟩) "t" 3 100 0 ⟨none, none, none⟩ =
      (loopStates (fun k => if k < 2 then ⟨503, none, none, none, 0, true⟩
          else ⟨200, none, none, some 5, 5, true⟩) "t" ⟨none, none, none⟩ 3,
        [100, 200], .ok) := by
  rw [spec_C5 _ "t" ⟨none, none, none⟩ 3 100 (by omega) (by decide)]
  decide

theorem dlGo_ne_panicked (resp : Nat → HttpResponse) (now : String) (st : FsState)
    (m b : Nat) (hm : 1 ≤ m) : (dlGo resp now m b 0 st).2.2 ≠ .panicked := by
  have h := dlGoAux_spec resp now m b st (m - 0) 0 rfl (by omega)
  rw [show loopStates resp now st 0 = st from rfl] at h
  unfold dlGo
  rw [h]
  cases (List.range' 0 (m - 0)).find? (loopOk resp now st) <;> simp

/-- C10: the claim says that any `download_file` invocation with
`max_retry = 0` reaches `unreachable!()` and panics.  Not every one
does: when the payload is complete and the freshness probe answers
`304`, the function returns `Ok` before the attempt loop.  Concretely:
payload of size 5, sidecar `total_size = 5`, probe `304`, `max_retry =
0` — the result is `Ok`, not a panic. -/
theorem spec_C10_counterexample :
    (downloadFile ⟨some 5, none, some ⟨none, none, none, some 5⟩⟩
        ⟨304, none, none, none, 0, true⟩
        (fun _ => ⟨200, none, none, some 5, 5, true⟩) 0 1000 "t").2.2 = DlResult.ok := by
  decide

/-- C10 (amended): whenever `download_file` reaches the attempt loop
(the freshness probe neither returns `304` early nor fails the
conditional GET), `max_retry = 0` makes the loop run zero times and
control reach `unreachable!()`, so the function panics; and for every
`max_retry ≥ 1` the `unreachable!()` line is never reached. -/
theorem spec_C10 (st : FsState) (probe : HttpResponse) (resp : Nat → HttpResponse)
    (m b : Nat) (now : String) :
    (1 ≤ m → (downloadFile st probe resp m b now).2.2 ≠ .panicked) ∧
    (reachesLoop st probe → (downloadFile st probe resp 0 b now).2.2 = .panicked) := by
  have hz : ∀ b2, dlGo resp now 0 b2 0 st = (st, [], .panicked) := fun _ => rfl
  constructor
  · intro hm
    unfold downloadFile
    by_cases hA : (st.meta.getD Meta.default).total_size = some (st.payload.getD 0)
    · rw [if_pos hA]
      by_cases h304 : probe.status = 304
      · rw [if_pos h304]
        simp
      · rw [if_neg h304]
        by_cases hS : (200 ≤ probe.status ∧ probe.status < 300) ∨ probe.status = 206
        · rw [if_pos hS]
          exact dlGo_ne_panicked resp now st m b hm
        · rw [if_neg hS]
          simp
    · rw [if_neg hA]
      exact dlGo_ne_panicked resp now st m b hm
  · intro hreach
    unfold downloadFile
    unfold reachesLoop at hreach
    rcases hreach with h1 | h2
    · rw [if_neg h1, hz]
    · by_cases hA : (st.meta.getD Meta.default).total_size = some (st.payload.getD 0)
      · have h304 : ¬probe.status = 304 := by
          rcases h2 with ⟨hl, hr⟩ | he <;> omega
        rw [if_pos hA, if_neg h304, if_pos h2, hz]
      · rw [if_neg hA, hz]

/-- C10 witness: with `max_retry = 1` the failing download returns an
error (no panic); with `max_retry = 0` and a cold-start state the loop
is skipped and the panic is reached. -/
theorem spec_C10_witness :
    ((downloadFile ⟨none, none, none⟩ ⟨200, none, none, none, 0, true⟩
        (fun _ => ⟨503, none, none, none, 0, true⟩) 1 100 "t").2.2 ≠ DlResult.panicked) ∧
    ((downloadFile ⟨none, none, none⟩ ⟨200, none, none, none, 0, true⟩
        (fun _ => ⟨503, none, none, none, 0, true⟩) 0 100 "t").2.2 = DlResult.panicked) :=
  ⟨(spec_C10 ⟨none, none, none⟩ ⟨200, none, none, none, 0, true⟩
      (fun _ => ⟨503, none, none, none, 0, true⟩) 1 100 "t").1 (by omega),
   (spec_C10 ⟨none, none, none⟩ ⟨200, none, none, none, 0, true⟩
      (fun _ => ⟨503, none, none, none, 0, true⟩) 0 100 "t").2 (by decide)⟩

/-- C1: `sync_once` ends every pass by calling `sync_finished`
(`src/sync/mod.rs` line 363), which sets `running = false` and
`last_sync = now`, leaves the counters untouched, and classifies
`last_result` from the final counter values alone: `Success` iff
`failed_files = 0 ∧ finished_files = total_files` (also setting
`last_ok_sync = now`, and only then), `PartialSuccess` iff
`failed_files > 0 ∧ finished_files > 0`, `Failed(..)` otherwise — it
never unconditionally reports success. -/
theorem spec_C1 (s : SyncStatus) (now : Nat) :
    (syncFinished s now).running = false ∧
    (syncFinished s now).last_sync = some now ∧
    (syncFinished s now).finished_files = s.finished_files ∧
    (syncFinished s now).failed_files = s.failed_files ∧
    (syncFinished s now).total_files = s.total_files ∧
    ((syncFinished s now).last_result = .success ↔
      s.failed_files = 0 ∧ s.finished_files = s.total_files) ∧
    ((syncFinished s now).last_ok_sync = some now ∨
      (syncFinished s now).last_ok_sync = s.last_ok_sync) ∧
    ((syncFinished s now).last_result = .success →
      (syncFinished s now).last_ok_sync = some now) ∧
    (¬(s.failed_files = 0 ∧ s.finished_files = s.total_files) →
      (syncFinished s now).last_ok_sync = s.last_ok_sync) ∧
    ((syncFinished s now).last_result = .partSuccess ↔
      0 < s.failed_files ∧ 0 < s.finished_files) ∧
    ((syncFinished s now).last_result = .failed failedMsg ↔
      ¬(s.failed_files = 0 ∧ s.finished_files = s.total_files) ∧
        ¬(0 < s.failed_files ∧ 0 < s.finished_files)) := by
  unfold syncFinished
  by_cases hA : s.failed_files = 0 ∧ s.finished_files = s.total_files
  · rw [if_pos hA]
    simp [hA.1, hA.2, failedMsg]
  · rw [if_neg hA]
    by_cases hB : 0 < s.failed_files ∧ 0 < s.finished_files
    · rw [if_pos hB]
      simp [hA, hB.1, hB.2, failedMsg]
    · rw [if_neg hB]
      simp [hA, hB, failedMsg]

/-- C1 witness: a pass with one failure out of two files is classified
`PartialSuccess` (not `Success`), and the counters are preserved. -/
theorem spec_C1_witness :
    (syncFinished (SyncStatus.mk false none none none .pending 2 2 1 []) 7).last_result =
      SyncResult.partSuccess := by
  have h := (spec_C1 (SyncStatus.mk false none none none .pending 2 2 1 []) 7).2.2.2.2.2.2.2.2.2.1
  exact h.mpr (by decide)

theorem checkInterval_some (input : UpdateConfigInput) (e : CoreError)
    (h : checkInterval input = some e) : ∃ msg, e = CoreError.invalidArgument msg := by
  unfold checkInterval at h
  split at h <;> try split_ifs at h
  all_goals try cases h
  all_goals exact ⟨_, rfl⟩

theorem checkStorageDir_some (env : SysEnv) (input : UpdateConfigInput) (e : CoreError)
    (h : checkStorageDir env input = some e) : ∃ msg, e = CoreError.invalidArgument msg := by
  unfold checkStorageDir at h
  split at h <;> try split_ifs at h
  all_goals try cases h
  all_goals exact ⟨_, rfl⟩

theorem checkUrl_some (input : UpdateConfigInput) (e : CoreError)
    (h : checkUrl input = some e) : ∃ msg, e = CoreError.invalidArgument msg := by
  unfold checkUrl at h
  split at h <;> try split_ifs at h
  all_goals try cases h
  all_goals exact ⟨_, rfl⟩

theorem checkBind_some (env : SysEnv) (input : UpdateConfigInput) (e : CoreError)
    (h : checkBind env input = some e) : ∃ msg, e = CoreError.invalidArgument msg := by
  unfold checkBind at h
  split at h <;> try split_ifs at h
  all_goals try cases h
  all_goals exact ⟨_, rfl⟩

theorem checkAdmin_some (env : SysEnv) (input : UpdateConfigInput) (e : CoreError)
    (h : checkAdmin env input = some e) : ∃ msg, e = CoreError.invalidArgument msg := by
  unfold checkAdmin at h
  split at h <;> try split_ifs at h
  all_goals try cases h
  all_goals exact ⟨_, rfl⟩

theorem checkProxy_some (input : UpdateConfigInput) (e : CoreError)
    (h : checkProxy input = some e) : ∃ msg, e = CoreError.invalidArgument msg := by
  unfold checkProxy at h
  split at h
  · split at h <;> try split_ifs at h
    all_goals try cases h
    all_goals exact ⟨_, rfl⟩
  · cases h

theorem checkConcurrency_some (input : UpdateConfigInput) (e : CoreError)
    (h : checkConcurrency input = some e) : ∃ msg, e = CoreError.invalidArgument msg := by
  unfold checkConcurrency at h
  split at h <;> try split_ifs at h
  all_goals try cases h
  all_goals exact ⟨_, rfl⟩

theorem checkRetry_some (input : UpdateConfigInput) (e : CoreError)
    (h : checkRetry input = some e) : ∃ msg, e = CoreError.invalidArgument msg := by
  unfold checkRetry at h
  split at h <;> try split_ifs at h
  all_goals try cases h
  all_goals exact ⟨_, rfl⟩

theorem checkDelay_some (input : UpdateConfigInput) (e : CoreError)
    (h : checkDelay input = some e) : ∃ msg, e = CoreError.invalidArgument msg := by
  unfold checkDelay at h
  split at h <;> try split_ifs at h
  all_goals try cases h
  all_goals exact ⟨_, rfl⟩

/-- C6: `update_config` runs all validation checks before touching any
state; every supplied field violating the §3 bounds makes it return
`InvalidArgument` (so no updated config is ever produced: the in-memory
snapshot is unchanged). -/
theorem spec_C6 (env : SysEnv) (cfg : Config) (input : UpdateConfigInput)
    (h : violatesBounds env input) :
    ∃ msg, updateConfig env cfg input = .error (.invalidArgument msg) := by
  unfold updateConfig
  cases h1 : checkInterval input with
  | some e =>
    obtain ⟨msg, rfl⟩ := checkInterval_some input e h1
    exact ⟨msg, rfl⟩
  | none =>
  simp only [h1]
  cases h2 : checkStorageDir env input with
  | some e =>
    obtain ⟨msg, rfl⟩ := checkStorageDir_some env input e h2
    exact ⟨msg, rfl⟩
  | none =>
  simp only [h2]
  cases h3 : checkUrl input with
  | some e =>
    obtain ⟨msg, rfl⟩ := checkUrl_some input e h3
    exact ⟨msg, rfl⟩
  | none =>
  simp only [h3]
  cases h4 : checkBind env input with
  | some e =>
    obtain ⟨msg, rfl⟩ := checkBind_some env input e h4
    exact ⟨msg, rfl⟩
  | none =>
  simp only [h4]
  cases h5 : checkAdmin env input with
  | some e =>
    obtain ⟨msg, rfl⟩ := checkAdmin_some env input e h5
    exact ⟨msg, rfl⟩
  | none =>
  simp only [h5]
  cases h6 : checkProxy input with
  | some e =>
    obtain ⟨msg, rfl⟩ := checkProxy_some input e h6
    exact ⟨msg, rfl⟩
  | none =>
  simp only [h6]
  cases h7 : checkConcurrency input with
  | some e =>
    obtain ⟨msg, rfl⟩ := checkConcurrency_some input e h7
    exact ⟨msg, rfl⟩
  | none =>
  simp only [h7]
  cases h8 : checkRetry input with
  | some e =>
    obtain ⟨msg, rfl⟩ := checkRetry_some input e h8
    exact ⟨msg, rfl⟩
  | none =>
  simp only [h8]
  cases h9 : checkDelay input with
  | some e =>
    obtain ⟨msg, rfl⟩ := checkDelay_some input e h9
    exact ⟨msg, rfl⟩
  | none =>
  exfalso
  rcases h with ⟨v, hv, hlt⟩ | ⟨d, hd, hbad⟩ | ⟨u, hu, hbad⟩ | ⟨p, hp, hbad⟩ |
    ⟨c, hc, hbad⟩ | ⟨r, hr, hbad⟩ | ⟨dl, hdl, hbad⟩
  · unfold checkInterval at h1
    rw [hv] at h1
    simp [hlt] at h1
  · unfold checkStorageDir at h2
    simp only [hd] at h2
    split_ifs at h2 with g1 g2
    rcases hbad with habs | ⟨hex, hnd⟩
    · exact habs g1
    · exact g2 ⟨hex, hnd⟩
  · unfold checkUrl at h3
    simp only [hu] at h3
    rw [if_pos hbad] at h3
    cases h3
  · unfold checkProxy at h6
    unfold badProxy at hbad
    simp only [hp] at h6
    rcases hsp : splitOnScheme p.data with _ | ⟨s1, tl⟩
    · rw [hsp] at h6
      simp at h6
    · rcases tl with _ | ⟨s2, tl2⟩
      · rw [hsp] at h6
        simp at h6
      · rcases tl2 with _ | ⟨s3, tl3⟩
        · simp only [hsp] at h6 hbad
          split_ifs at h6 with g1 g2
          simp only [Bool.or_eq_true] at hbad
          rcases hbad with hb1 | hb2
          · simp [g1] at hb1
          · rw [g2] at hb2
            exact absurd hb2 (by decide)
        · rw [hsp] at h6
          simp at h6
  · unfold checkConcurrency at h7
    rw [hc] at h7
    simp [hbad] at h7
  · unfold checkRetry at h8
    rw [hr] at h8
    simp [hbad] at h8
  · unfold checkDelay at h9
    rw [hdl] at h9
    simp [hbad] at h9

/-- C6 witness: `update_config(download_concurrency = 0)` is rejected
with `InvalidArgument`. -/
theorem spec_C6_witness :
    ∃ msg,
      updateConfig ⟨fun _ => false, fun _ => false, fun _ => true⟩
          ⟨86400, "/srv/data", "0.0.0.0:8080", "0.0.0.0", 8080, "0.0.0.0:25666",
            "localhost", none, 4, 3, 1000⟩
          { UpdateConfigInput.empty with download_concurrency := some 0 } =
        .error (.invalidArgument msg) :=
  spec_C6 ⟨fun _ => false, fun _ => false, fun _ => true⟩
    ⟨86400, "/srv/data", "0.0.0.0:8080", "0.0.0.0", 8080, "0.0.0.0:25666",
      "localhost", none, 4, 3, 1000⟩
    { UpdateConfigInput.empty with download_concurrency := some 0 }
    (by
      refine Or.inr (Or.inr (Or.inr (Or.inr (Or.inl ⟨0, rfl, ?_⟩))))
      omega)

theorem listFilesLoop_eq (base : String) (acc : List FileInfoDto) (es : List WalkEntry) :
    listFilesLoop base acc es =
      acc ++ (es.filter (fun e => !isMetaEntry e)).map (mkFileInfo base) := by
  induction es generalizing acc with
  | nil => simp [listFilesLoop]
  | cons e rest ih =>
    unfold listFilesLoop
    by_cases hm : isMetaEntry e
    · simp [hm, ih]
    · simp [hm, ih]

/-- C8: the spec claims `list_files` output is sorted by filename for
every state of `storage_dir`.  It is not: the code returns entries in
directory-walk order.  A walk yielding `b.bin` before `a.bin` (a
possible readdir order) produces an unsorted list. -/
theorem spec_C8_counterexample :
    ¬sortedByFilename (listFiles "localhost" 8080
      [⟨"b.bin", "b.bin", none⟩, ⟨"a.bin", "a.bin", none⟩]) := by
  decide

/-- C8 (amended): `list_files` returns the walked regular files in
traversal order, with `.meta` sidecars skipped, each mapped to
`{filename, url = http://url:bind_port/relative_path, last_modified or
"unknown"}`; no sorting is applied (only the status DTO conversion
`convert_files` sorts, which is a different operation). -/
theorem spec_C8 (url : String) (port : Nat) (walk : List WalkEntry) :
    listFiles url port walk =
      (walk.filter (fun e => !isMetaEntry e)).map
        (mkFileInfo ("http://" ++ url ++ ":" ++ toString port)) := by
  unfold listFiles
  rw [listFilesLoop_eq]
  simp

theorem critCount_le_two (s : LockState) : critCount s ≤ 2 := by
  unfold critCount
  split_ifs <;> omega

theorem schedInvB_iff (s : LockState) : schedInvB s = true ↔ schedInv s := by
  unfold schedInvB schedInv
  simp [and_assoc]

theorem stepPreserves_all :
    ∀ p0 < 5, ∀ p1 < 5, ∀ ac < 3, ∀ (sm : Bool) (pick : Bool),
      stepPreserves p0 p1 sm ac pick = true := by
  decide

theorem schedInv_step (s s2 : LockState) (pick : Bool) (hinv : schedInv s)
    (hstep : stepSys schedTask schedTask s pick = some s2) : schedInv s2 := by
  obtain ⟨p0, p1, sm, ac⟩ := s
  obtain ⟨h0, h1, hact, hsem⟩ := hinv
  have hb0 : p0 ≤ 4 := h0
  have hb1 : p1 ≤ 4 := h1
  have hae : ac = critCount ⟨p0, p1, sm, ac⟩ := hact
  have hcc := critCount_le_two ⟨p0, p1, sm, ac⟩
  have hkey := stepPreserves_all p0 (by omega) p1 (by omega) ac (by omega) sm pick
  unfold stepPreserves at hkey
  have hinvb : schedInvB ⟨p0, p1, sm, ac⟩ = true :=
    (schedInvB_iff ⟨p0, p1, sm, ac⟩).mpr ⟨h0, h1, hact, hsem⟩
  rw [hinvb, hstep] at hkey
  simp at hkey
  exact (schedInvB_iff s2).mp hkey

theorem schedInv_run (picks : List Bool) :
    ∀ (s s2 : LockState), schedInv s →
      runSched schedTask schedTask s picks = some s2 → schedInv s2 := by
  induction picks with
  | nil =>
    intro s s2 h hr
    simp [runSched] at hr
    exact hr ▸ h
  | cons pk rest ih =>
    intro s s2 h hr
    unfold runSched at hr
    cases hst : stepSys schedTask schedTask s pk with
    | none => rw [hst] at hr; cases hr
    | some smid =>
      rw [hst] at hr
      exact ih smid s2 (schedInv_step s smid pk h hst) hr

theorem schedInv_init : schedInv initLock := by
  unfold schedInv initLock critCount holdCount
  norm_num

theorem critCount_le_holdCount (s : LockState) : critCount s ≤ holdCount s := by
  unfold critCount holdCount
  split_ifs <;> omega

theorem schedInv_active_le (s : LockState) (h : schedInv s) : s.active ≤ 1 := by
  obtain ⟨h0, h1, hact, hsem⟩ := h
  have hch := critCount_le_holdCount s
  cases hs : s.sem <;> rw [hs] at hsem <;> simp at hsem <;> omega

/-- C7: the claim says the periodic scheduler and `trigger_sync`
contend on the same 1-permit semaphore, so at most one sync pass is
ever active.  In the sources `trigger_sync` calls `sync_once` directly
without acquiring any semaphore, so a trigger arriving while a
scheduled pass runs yields two concurrent passes: after the schedule
[scheduler, scheduler, trigger] both tasks are inside `sync_once`
(`active = 2`). -/
theorem spec_C7_counterexample :
    runSched schedTask triggerTask initLock [false, false, true] =
      some { pc0 := 2, pc1 := 1, sem := false, active := 2 } := by
  decide

/-- C7 (amended): the scheduler's own passes are serialised by its
1-permit semaphore — interleaving two scheduler iterations never has
two passes active — but `trigger_sync` does not take that semaphore, so
the process-wide "at most one pass" property fails (see the
counterexample). -/
theorem spec_C7 (picks : List Bool) (s2 : LockState)
    (h : runSched schedTask schedTask initLock picks = some s2) : s2.active ≤ 1 :=
  schedInv_active_le s2 (schedInv_run picks initLock s2 schedInv_init h)

/-- C7 witness: after [scheduler 0 acquires, scheduler 0 begins] the
joint state has one active pass. -/
theorem spec_C7_witness : (LockState.mk 2 0 false 1).active ≤ 1 :=
  spec_C7 [false, false] (LockState.mk 2 0 false 1) (by decide)

theorem lookupEntry_none_iff (fs : List (String × FileProgress)) (f : String) :
    lookupEntry fs f = none ↔ f ∉ fs.map Prod.fst := by
  induction fs with
  | nil => simp [lookupEntry]
  | cons x rest ih =>
    obtain ⟨g, q⟩ := x
    unfold lookupEntry
    by_cases hg : g = f
    · simp [hg]
    · rw [if_neg hg, ih]
      simp [Ne.symm hg]

theorem lookupEntry_mem (fs : List (String × FileProgress)) (f : String)
    (q : FileProgress) (h : lookupEntry fs f = some q) : (f, q) ∈ fs := by
  induction fs with
  | nil => simp [lookupEntry] at h
  | cons x rest ih =>
    obtain ⟨g, q2⟩ := x
    unfold lookupEntry at h
    by_cases hg : g = f
    · rw [if_pos hg] at h
      cases h
      subst hg
      exact List.mem_cons_self _ _
    · rw [if_neg hg] at h
      exact List.mem_cons_of_mem _ (ih h)

theorem setEntry_of_none (fs : List (String × FileProgress)) (f : String)
    (p : FileProgress) (h : lookupEntry fs f = none) : setEntry fs f p = fs ++ [(f, p)] := by
  induction fs with
  | nil => simp [setEntry]
  | cons x rest ih =>
    obtain ⟨g, q⟩ := x
    unfold lookupEntry at h
    unfold setEntry
    by_cases hg : g = f
    · rw [if_pos hg] at h
      cases h
    · rw [if_neg hg] at h ⊢
      simp [ih h]

theorem countDone_append_one (fs : List (String × FileProgress)) (x : String × FileProgress) :
    countDone (fs ++ [x]) = countDone fs + (if x.2.done then 1 else 0) := by
  unfold countDone
  rw [List.filter_append]
  by_cases hd : x.2.done <;> simp [hd]

theorem countErr_append_one (fs : List (String × FileProgress)) (x : String × FileProgress) :
    countErr (fs ++ [x]) = countErr fs + (if x.2.error.isSome then 1 else 0) := by
  unfold countErr
  rw [List.filter_append]
  by_cases hd : x.2.error.isSome <;> simp [hd]

theorem countDone_setEntry_some (fs : List (String × FileProgress)) (f : String)
    (p q : FileProgress) (h : lookupEntry fs f = some q) (hq : q.done = false) :
    countDone (setEntry fs f p) = countDone fs + (if p.done then 1 else 0) := by
  induction fs with
  | nil => simp [lookupEntry] at h
  | cons x rest ih =>
    obtain ⟨g, q2⟩ := x
    unfold lookupEntry at h
    unfold setEntry
    by_cases hg : g = f
    · rw [if_pos hg] at h
      cases h
      rw [if_pos hg]
      unfold countDone
      by_cases hp : p.done <;> simp [hp, hq, List.filter_cons]
    · rw [if_neg hg] at h
      rw [if_neg hg]
      unfold countDone at ih ⊢
      by_cases h2 : q2.done <;> simp [h2, List.filter_cons, ih h] <;> omega

theorem countErr_setEntry_some (fs : List (String × FileProgress)) (f : String)
    (p q : FileProgress) (h : lookupEntry fs f = some q) (hq : q.error = none) :
    countErr (setEntry fs f p) = countErr fs + (if p.error.isSome then 1 else 0) := by
  induction fs with
  | nil => simp [lookupEntry] at h
  | cons x rest ih =>
    obtain ⟨g, q2⟩ := x
    unfold lookupEntry at h
    unfold setEntry
    by_cases hg : g = f
    · rw [if_pos hg] at h
      cases h
      rw [if_pos hg]
      unfold countErr
      by_cases hp : p.error.isSome <;> simp [hp, hq, List.filter_cons]
    · rw [if_neg hg] at h
      rw [if_neg hg]
      unfold countErr at ih ⊢
      by_cases h2 : q2.error.isSome <;> simp [h2, List.filter_cons, ih h] <;> omega

theorem keys_setEntry_some (fs : List (String × FileProgress)) (f : String)
    (p q : FileProgress) (h : lookupEntry fs f = some q) :
    (setEntry fs f p).map Prod.fst = fs.map Prod.fst := by
  induction fs with
  | nil => simp [lookupEntry] at h
  | cons x rest ih =>
    obtain ⟨g, q2⟩ := x
    unfold lookupEntry at h
    unfold setEntry
    by_cases hg : g = f
    · rw [if_pos hg]
      simp
    · rw [if_neg hg] at h
      rw [if_neg hg]
      simp [ih h]

theorem mem_setEntry (fs : List (String × FileProgress)) (f : String)
    (p : FileProgress) (x : String × FileProgress) (hx : x ∈ setEntry fs f p) :
    x = (f, p) ∨ x ∈ fs := by
  induction fs with
  | nil => simpa [setEntry] using hx
  | cons y rest ih =>
    obtain ⟨g, q⟩ := y
    unfold setEntry at hx
    by_cases hg : g = f
    · rw [if_pos hg] at hx
      subst hg
      rcases List.mem_cons.mp hx with h1 | h1
      · exact Or.inl (by simpa using h1)
      · exact Or.inr (List.mem_cons_of_mem _ h1)
    · rw [if_neg hg] at hx
      rcases List.mem_cons.mp hx with h1 | h1
      · exact Or.inr (by simp [h1])
      · rcases ih h1 with h2 | h2
        · exact Or.inl h2
        · exact Or.inr (List.mem_cons_of_mem _ h2)

theorem keys_mapEntry (fs : List (String × FileProgress)) (f : String)
    (u : FileProgress → FileProgress) :
    (mapEntry fs f u).map Prod.fst = fs.map Prod.fst := by
  induction fs with
  | nil => simp [mapEntry]
  | cons x rest ih =>
    obtain ⟨g, q⟩ := x
    unfold mapEntry
    by_cases hg : g = f <;> simp [hg, ih]

theorem mem_mapEntry (fs : List (String × FileProgress)) (f : String)
    (u : FileProgress → FileProgress) (x : String × FileProgress)
    (hx : x ∈ mapEntry fs f u) : x ∈ fs ∨ ∃ y ∈ fs, x = (y.1, u y.2) := by
  induction fs with
  | nil => simpa [mapEntry] using hx
  | cons y rest ih =>
    obtain ⟨g, q⟩ := y
    unfold mapEntry at hx
    by_cases hg : g = f
    · rw [if_pos hg] at hx
      rcases List.mem_cons.mp hx with h1 | h1
      · exact Or.inr ⟨(g, q), List.mem_cons_self _ _, h1⟩
      · exact Or.inl (List.mem_cons_of_mem _ h1)
    · rw [if_neg hg] at hx
      rcases List.mem_cons.mp hx with h1 | h1
      · exact Or.inl (by simp [h1])
      · rcases ih h1 with h2 | ⟨y2, hy2, he⟩
        · exact Or.inl (List.mem_cons_of_mem _ h2)
        · exact Or.inr ⟨y2, List.mem_cons_of_mem _ hy2, he⟩

theorem countDone_mapEntry_pres (fs : List (String × FileProgress)) (f : String)
    (u : FileProgress → FileProgress) (hu : ∀ p, (u p).done = p.done) :
    countDone (mapEntry fs f u) = countDone fs := by
  induction fs with
  | nil => simp [mapEntry]
  | cons x rest ih =>
    obtain ⟨g, q⟩ := x
    unfold mapEntry
    unfold countDone at ih ⊢
    by_cases hg : g = f
    · by_cases hd : q.done <;> simp [hg, List.filter_cons, hu, hd]
    · by_cases hd : q.done <;> simp [hg, List.filter_cons, hd, ih]

theorem countErr_mapEntry_pres (fs : List (String × FileProgress)) (f : String)
    (u : FileProgress → FileProgress) (hu : ∀ p, (u p).error = p.error) :
    countErr (mapEntry fs f u) = countErr fs := by
  induction fs with
  | nil => simp [mapEntry]
  | cons x rest ih =>
    obtain ⟨g, q⟩ := x
    unfold mapEntry
    unfold countErr at ih ⊢
    by_cases hg : g = f
    · by_cases hd : q.error.isSome <;> simp [hg, List.filter_cons, hu, hd]
    · by_cases hd : q.error.isSome <;> simp [hg, List.filter_cons, hd, ih]

theorem countDone_mapDone (fs : List (String × FileProgress)) (f : String)
    (q : FileProgress) (h : lookupEntry fs f = some q) (hq : q.done = false) :
    countDone (mapEntry fs f (fun p => { p with done := true })) = countDone fs + 1 := by
  induction fs with
  | nil => simp [lookupEntry] at h
  | cons x rest ih =>
    obtain ⟨g, q2⟩ := x
    unfold lookupEntry at h
    unfold mapEntry
    unfold countDone at ih ⊢
    by_cases hg : g = f
    · rw [if_pos hg] at h
      cases h
      simp [hg, List.filter_cons, hq]
    · rw [if_neg hg] at h
      by_cases hd : q2.done <;> simp [hg, List.filter_cons, hd, ih h] <;> omega

theorem countErr_le_countDone (fs : List (String × FileProgress))
    (h : ∀ x ∈ fs, x.2.error.isSome → x.2.done = true) :
    countErr fs ≤ countDone fs := by
  induction fs with
  | nil => simp [countErr, countDone]
  | cons x rest ih =>
    have hrest := ih (fun y hy => h y (List.mem_cons_of_mem _ hy))
    unfold countErr countDone at hrest ⊢
    by_cases he : x.2.error.isSome
    · have hd : x.2.done = true := h x (List.mem_cons_self _ _) he
      simp [List.filter_cons, he, hd]
      omega
    · by_cases hd : x.2.done <;> simp [List.filter_cons, he, hd] <;> omega

theorem entry_error_none (F : List String) (s : SyncStatus) (f : String) (q : FileProgress)
    (herr : ∀ x ∈ s.files, x.2.error.isSome → x.2.done = true)
    (hl : lookupEntry s.files f = some q) (hq : q.done = false) : q.error = none := by
  cases he : q.error with
  | none => rfl
  | some msg =>
    have h2 : q.done = true := herr (f, q) (lookupEntry_mem _ _ _ hl) (by simp [he])
    rw [h2] at hq
    cases hq

theorem statusInv_step (F : List String) (s : SyncStatus) (e : FileEvent)
    (hinv : statusInv F s) (hen : eventEnabled F s e = true) :
    statusInv F (applyEvent s e) := by
  obtain ⟨hfin, hfail, hnd, hmem, herr, htot⟩ := hinv
  cases e with
  | progress f d =>
    simp only [applyEvent, fileProgress, statusInv]
    refine ⟨?_, ?_, ?_, ?_, ?_, htot⟩
    · rw [countDone_mapEntry_pres s.files f
        (fun p => { p with downloaded := d }) (fun p => rfl)]
      exact hfin
    · rw [countErr_mapEntry_pres s.files f
        (fun p => { p with downloaded := d }) (fun p => rfl)]
      exact hfail
    · rw [keys_mapEntry]
      exact hnd
    · intro x hx
      rcases mem_mapEntry _ _ _ x hx with h | ⟨y, hy, he⟩
      · exact hmem x h
      · subst he
        exact hmem y hy
    · intro x hx
      rcases mem_mapEntry _ _ _ x hx with h | ⟨y, hy, he⟩
      · exact herr x h
      · subst he
        exact herr y hy
  | started f total =>
    simp only [eventEnabled, FileEvent.name, Bool.and_eq_true, decide_eq_true_eq,
      Bool.not_eq_true'] at hen
    obtain ⟨hF, hD⟩ := hen
    simp only [applyEvent, fileStarted, statusInv]
    cases hl : lookupEntry s.files f with
    | none =>
      refine ⟨?_, ?_, ?_, ?_, ?_, htot⟩
      · rw [setEntry_of_none _ _ _ hl, countDone_append_one]
        simp [hfin]
      · rw [setEntry_of_none _ _ _ hl, countErr_append_one]
        simp [hfail]
      · rw [setEntry_of_none _ _ _ hl, List.map_append, List.nodup_append]
        refine ⟨hnd, by simp, ?_⟩
        intro a ha hb
        simp at hb
        subst hb
        exact (lookupEntry_none_iff _ _).mp hl ha
      · intro x hx
        rcases mem_setEntry _ _ _ x hx with h | h
        · subst h
          exact hF
        · exact hmem x h
      · intro x hx
        rcases mem_setEntry _ _ _ x hx with h | h
        · subst h
          simp
        · exact herr x h
    | some q =>
      unfold entryDone at hD
      rw [hl] at hD
      have hqe : q.error = none := entry_error_none F s f q herr hl hD
      refine ⟨?_, ?_, ?_, ?_, ?_, htot⟩
      · rw [countDone_setEntry_some _ _ _ _ hl hD]
        simp [hfin]
      · rw [countErr_setEntry_some _ _ _ _ hl hqe]
        simp [hfail]
      · rw [keys_setEntry_some _ _ _ _ hl]
        exact hnd
      · intro x hx
        rcases mem_setEntry _ _ _ x hx with h | h
        · subst h
          exact hF
        · exact hmem x h
      · intro x hx
        rcases mem_setEntry _ _ _ x hx with h | h
        · subst h
          simp
        · exact herr x h
  | finished f =>
    simp only [eventEnabled, FileEvent.name, Bool.and_eq_true, decide_eq_true_eq,
      Bool.not_eq_true'] at hen
    obtain ⟨hF, hD⟩ := hen
    simp only [applyEvent, fileFinished, statusInv]
    cases hl : lookupEntry s.files f with
    | none =>
      simp only [hl]
      refine ⟨?_, ?_, ?_, ?_, ?_, htot⟩
      · rw [countDone_append_one]
        simp [hfin]
      · rw [countErr_append_one]
        simp [hfail]
      · rw [List.map_append, List.nodup_append]
        refine ⟨hnd, by simp, ?_⟩
        intro a ha hb
        simp at hb
        subst hb
        exact (lookupEntry_none_iff _ _).mp hl ha
      · intro x hx
        rcases List.mem_append.mp hx with h | h
        · exact hmem x h
        · simp at h
          subst h
          exact hF
      · intro x hx
        rcases List.mem_append.mp hx with h | h
        · exact herr x h
        · simp at h
          subst h
          simp
    | some q =>
      unfold entryDone at hD
      rw [hl] at hD
      simp only [hl]
      refine ⟨?_, ?_, ?_, ?_, ?_, htot⟩
      · rw [countDone_mapDone _ _ _ hl hD]
        simp [hfin]
      · rw [countErr_mapEntry_pres s.files f
          (fun p => { p with done := true }) (fun p => rfl)]
        exact hfail
      · rw [keys_mapEntry]
        exact hnd
      · intro x hx
        rcases mem_mapEntry _ _ _ x hx with h | ⟨y, hy, he⟩
        · exact hmem x h
        · subst he
          exact hmem y hy
      · intro x hx
        rcases mem_mapEntry _ _ _ x hx with h | ⟨y, hy, he⟩
        · exact herr x h
        · subst he
          intro _
          simp
  | error f msg =>
    simp only [eventEnabled, FileEvent.name, Bool.and_eq_true, decide_eq_true_eq,
      Bool.not_eq_true'] at hen
    obtain ⟨hF, hD⟩ := hen
    simp only [applyEvent, fileError, statusInv]
    cases hl : lookupEntry s.files f with
    | none =>
      refine ⟨?_, ?_, ?_, ?_, ?_, htot⟩
      · rw [setEntry_of_none _ _ _ hl, countDone_append_one]
        simp [hfin]
      · rw [setEntry_of_none _ _ _ hl, countErr_append_one]
        simp [hfail]
      · rw [setEntry_of_none _ _ _ hl, List.map_append, List.nodup_append]
        refine ⟨hnd, by simp, ?_⟩
        intro a ha hb
        simp at hb
        subst hb
        exact (lookupEntry_none_iff _ _).mp hl ha
      · intro x hx
        rcases mem_setEntry _ _ _ x hx with h | h
        · subst h
          exact hF
        · exact hmem x h
      · intro x hx
        rcases mem_setEntry _ _ _ x hx with h | h
        · subst h
          intro _
          simp
        · exact herr x h
    | some q =>
      unfold entryDone at hD
      rw [hl] at hD
      have hqe : q.error = none := entry_error_none F s f q herr hl hD
      refine ⟨?_, ?_, ?_, ?_, ?_, htot⟩
      · rw [countDone_setEntry_some _ _ _ _ hl hD]
        simp [hfin]
      · rw [countErr_setEntry_some _ _ _ _ hl hqe]
        simp [hfail]
      · rw [keys_setEntry_some _ _ _ _ hl]
        exact hnd
      · intro x hx
        rcases mem_setEntry _ _ _ x hx with h | h
        · subst h
          exact hF
        · exact hmem x h
      · intro x hx
        rcases mem_setEntry _ _ _ x hx with h | h
        · subst h
          intro _
          simp
        · exact herr x h

theorem traceOK_append (F : List String) (es1 es2 : List FileEvent) :
    ∀ s, traceOK F s (es1 ++ es2) = true → traceOK F s es1 = true := by
  induction es1 with
  | nil => intro s _; rfl
  | cons e rest ih =>
    intro s h
    simp only [traceOK, List.cons_append, Bool.and_eq_true] at h ⊢
    exact ⟨h.1, ih _ h.2⟩

theorem statusInv_run (F : List String) (es : List FileEvent) :
    ∀ s, statusInv F s → traceOK F s es = true → statusInv F (runTrace s es) := by
  induction es with
  | nil => intro s h _; exact h
  | cons e rest ih =>
    intro s h htr
    simp only [traceOK, Bool.and_eq_true] at htr
    simp only [runTrace]
    exact ih _ (statusInv_step F s e h htr.1) htr.2

theorem statusInv_start (F : List String) (s0 : SyncStatus) (now : Nat) :
    statusInv F (syncStarted s0 now F.length) := by
  unfold statusInv syncStarted countDone countErr
  simp

theorem statusInv_counters (F : List String) (s : SyncStatus) (h : statusInv F s) :
    statusCountersOK s := by
  obtain ⟨hfin, hfail, hnd, hmem, herr, htot⟩ := h
  refine ⟨hfin, hfail, ?_, ?_⟩
  · rw [hfin, hfail]
    exact countErr_le_countDone _ herr
  · rw [hfin, htot]
    calc countDone s.files ≤ s.files.length := List.length_filter_le _ _
    _ = (s.files.map Prod.fst).length := (List.length_map _ _).symm
    _ ≤ F.length := by
        refine List.Subperm.length_le (List.subperm_of_subset hnd ?_)
        intro k hk
        rcases List.mem_map.mp hk with ⟨x, hx, he⟩
        subst he
        exact hmem x hx

/-- C2: along any sync pass — `sync_started(|F|)` followed by any
interleaving of per-file events in which every event concerns a file of
the snapshot `F` and no `Started`/`Finished`/`Error` arrives for a file
already finished (the discipline `download_file` and `sync_once`
guarantee: one task per snapshot entry, at most one terminal event per
file, emitted last) — after every status mutation the `SyncStatus`
satisfies: `finished_files` = number of entries with `done`,
`failed_files` = number of entries with an error, and
`failed_files ≤ finished_files ≤ total_files`. -/
theorem spec_C2 (F : List String) (s0 : SyncStatus) (now : Nat) (es1 es2 : List FileEvent)
    (h : traceOK F (syncStarted s0 now F.length) (es1 ++ es2) = true) :
    statusCountersOK (runTrace (syncStarted s0 now F.length) es1) :=
  statusInv_counters F _
    (statusInv_run F es1 _ (statusInv_start F s0 now) (traceOK_append F es1 es2 _ h))

/-- C2 witness: a two-file pass in which `a` finishes (with a `304`-style
`Finished` without `Started` for good measure on `b`) and `b` errors. -/
theorem spec_C2_witness :
    statusCountersOK (runTrace (syncStarted initStatus 0 (["a", "b"] : List String).length)
      [.started "a" (some 5), .progress "a" 3, .finished "a", .error "b" "http 503"]) :=
  spec_C2 ["a", "b"] initStatus 0
    [.started "a" (some 5), .progress "a" 3, .finished "a", .error "b" "http 503"] []
    (by decide)

theorem hexVal_hexDigitOf (d : Nat) (h : d < 16) : hexVal (hexDigitOf d) = some d := by
  revert h
  revert d
  decide

theorem digitVal_decDigitOf (d : Nat) (h : d < 10) : digitVal (decDigitOf d) = some d := by
  revert h
  revert d
  decide

theorem hexDigitOf_ne_nl (d : Nat) (h : d < 16) : hexDigitOf d ≠ '\n' := by
  revert h
  revert d
  decide

theorem decDigitOf_ne_nl (d : Nat) (h : d < 10) : decDigitOf d ≠ '\n' := by
  revert h
  revert d
  decide

theorem nl_not_mem_escChar (c : Char) : '\n' ∉ escChar c := by
  unfold escChar
  split_ifs with h1 h2 h3 h4 h5 h6 h7 h8
  · simp
  · simp
  · simp
  · simp
  · simp
  · simp
  · simp
  · have hb : c.toNat < 128 := by rcases h8 with h | h <;> omega
    intro hmem
    simp only [List.mem_cons, List.not_mem_nil, or_false] at hmem
    rcases hmem with h | h | h | h | h | h
    · cases h
    · cases h
    · cases h
    · cases h
    · exact hexDigitOf_ne_nl (c.toNat / 16) (by omega) h.symm
    · exact hexDigitOf_ne_nl (c.toNat % 16) (by omega) h.symm
  · intro hmem
    simp only [List.mem_cons, List.not_mem_nil, or_false] at hmem
    exact h5 hmem.symm

theorem nl_not_mem_escStr (s : List Char) : '\n' ∉ escStr s := by
  induction s with
  | nil => simp [escStr]
  | cons c cs ih =>
    unfold escStr
    intro hmem
    rcases List.mem_append.mp hmem with h | h
    · exact nl_not_mem_escChar c h
    · exact ih h

theorem nl_not_mem_natToCharsAux (fuel n : Nat) : '\n' ∉ natToCharsAux fuel n := by
  induction fuel generalizing n with
  | zero => simp [natToCharsAux]
  | succ fuel ih =>
    unfold natToCharsAux
    by_cases h : n < 10
    · simp only [if_pos h]
      intro hmem
      simp only [List.mem_cons, List.not_mem_nil, or_false] at hmem
      exact decDigitOf_ne_nl n h hmem.symm
    · simp only [if_neg h]
      intro hmem
      rcases List.mem_append.mp hmem with hm | hm
      · exact ih (n / 10) hm
      · simp only [List.mem_cons, List.not_mem_nil, or_false] at hm
        exact decDigitOf_ne_nl (n % 10) (by omega) hm.symm

theorem splitNl_line (l : List Char) (rest : List Char) (h : '\n' ∉ l) :
    splitNl (l ++ '\n' :: rest) = l :: splitNl rest := by
  induction l with
  | nil => simp [splitNl]
  | cons c cs ih =>
    have hc : ¬c = '\n' := fun he => h (by simp [he])
    have hcs : '\n' ∉ cs := fun hm => h (List.mem_cons_of_mem _ hm)
    rw [List.cons_append]
    simp only [splitNl, if_neg hc]
    rw [ih hcs]

theorem parseStrAux_escStr (s : List Char) :
    ∀ (rest : List Char), parseStrAux (escStr s ++ '"' :: rest) = some (s, rest) := by
  induction s with
  | nil =>
    intro rest
    simp only [escStr, List.nil_append]
    rw [parseStrAux.eq_def]
    simp
  | cons c cs ih =>
    intro rest
    show parseStrAux ((escChar c ++ escStr cs) ++ '"' :: rest) = some (c :: cs, rest)
    rw [List.append_assoc]
    unfold escChar
    split_ifs with h1 h2 h3 h4 h5 h6 h7 h8
    · subst h1
      simp only [List.cons_append, List.nil_append]
      rw [parseStrAux.eq_def]
      simp [unescCode, ih]
    · subst h2
      simp only [List.cons_append, List.nil_append]
      rw [parseStrAux.eq_def]
      simp [unescCode, ih]
    · subst h3
      simp only [List.cons_append, List.nil_append]
      rw [parseStrAux.eq_def]
      simp [unescCode, ih]
    · subst h4
      simp only [List.cons_append, List.nil_append]
      rw [parseStrAux.eq_def]
      simp [unescCode, ih]
    · subst h5
      simp only [List.cons_append, List.nil_append]
      rw [parseStrAux.eq_def]
      simp [unescCode, ih]
    · subst h6
      simp only [List.cons_append, List.nil_append]
      rw [parseStrAux.eq_def]
      simp [unescCode, ih]
    · subst h7
      simp only [List.cons_append, List.nil_append]
      rw [parseStrAux.eq_def]
      simp [unescCode, ih]
    · have hb : c.toNat < 128 := by rcases h8 with h | h <;> omega
      have hv1 : hexVal (hexDigitOf (c.toNat / 16)) = some (c.toNat / 16) :=
        hexVal_hexDigitOf _ (by omega)
      have hv2 : hexVal (hexDigitOf (c.toNat % 16)) = some (c.toNat % 16) :=
        hexVal_hexDigitOf _ (by omega)
      have hh : hexVal '0' = some 0 := by decide
      simp only [List.cons_append, List.nil_append]
      rw [parseStrAux.eq_def]
      simp [hh, hv1, hv2, ih]
      rw [show c.toNat / 16 * 16 + c.toNat % 16 = c.toNat from by omega, Char.ofNat_toNat]
    · simp only [List.cons_append, List.nil_append]
      rw [parseStrAux.eq_def]
      simp [if_neg h1, if_neg h2, ih]

theorem parseNatGo_append (a b : List Char) :
    ∀ acc, parseNatGo (a ++ b) acc =
      match parseNatGo a acc with
      | some v => parseNatGo b v
      | none => none := by
  induction a with
  | nil => intro acc; simp [parseNatGo]
  | cons c rest ih =>
    intro acc
    rw [List.cons_append]
    cases hd : digitVal c with
    | none => simp only [parseNatGo, hd]
    | some d => simp only [parseNatGo, hd, ih]

theorem parseNatGo_natToCharsAux (fuel : Nat) :
    ∀ n acc, n < fuel →
      parseNatGo (natToCharsAux fuel n) acc =
        some (acc * 10 ^ (natToCharsAux fuel n).length + n) := by
  induction fuel with
  | zero => intro n acc h; omega
  | succ fuel ih =>
    intro n acc h
    unfold natToCharsAux
    by_cases hn : n < 10
    · rw [if_pos hn]
      unfold parseNatGo
      rw [digitVal_decDigitOf n hn]
      simp [parseNatGo]
    · rw [if_neg hn]
      have hrec : n / 10 < fuel := by
        have := Nat.div_lt_self (by omega : 0 < n) (by omega : 1 < 10)
        omega
      rw [parseNatGo_append]
      rw [ih (n / 10) acc hrec]
      unfold parseNatGo
      rw [digitVal_decDigitOf (n % 10) (by omega)]
      simp [parseNatGo, List.length_append]
      ring_nf
      omega

theorem parseNat_natToChars (n : Nat) : parseNat (natToChars n) = some n := by
  unfold natToChars
  have hne : natToCharsAux (n + 1) n ≠ [] := by
    unfold natToCharsAux
    by_cases hn : n < 10
    · simp [hn]
    · simp [hn]
  have hgo := parseNatGo_natToCharsAux (n + 1) n 0 (by omega)
  cases hs : natToCharsAux (n + 1) n with
  | nil => exact absurd hs hne
  | cons c rest =>
    rw [hs] at hgo
    unfold parseNat
    rw [hgo]
    simp

theorem nl_not_mem_natToChars (n : Nat) : '\n' ∉ natToChars n :=
  nl_not_mem_natToCharsAux (n + 1) n

theorem startsWithChars_append_self (k : List Char) :
    ∀ v, startsWithChars (k ++ v) k = true := by
  induction k with
  | nil => intro v; cases v <;> rfl
  | cons c cs ih => intro v; simp [startsWithChars, ih]

theorem startsWith_lm_etag (v : List Char) :
    startsWithChars (lastModifiedKey ++ v) etagKey = false := rfl

theorem startsWith_fa_etag (v : List Char) :
    startsWithChars (fetchedAtKey ++ v) etagKey = false := rfl

theorem startsWith_fa_lm (v : List Char) :
    startsWithChars (fetchedAtKey ++ v) lastModifiedKey = false := rfl

theorem startsWith_ts_etag (v : List Char) :
    startsWithChars (totalSizeKey ++ v) etagKey = false := rfl

theorem startsWith_ts_lm (v : List Char) :
    startsWithChars (totalSizeKey ++ v) lastModifiedKey = false := rfl

theorem startsWith_ts_fa (v : List Char) :
    startsWithChars (totalSizeKey ++ v) fetchedAtKey = false := rfl

theorem parseStrValue_encoded (s : List Char) :
    parseStrValue ('"' :: (escStr s ++ ['"'])) = some s := by
  have h := parseStrAux_escStr s []
  simp [parseStrValue, h]

theorem parseLine_etag (s : List Char) :
    parseLine (etagKey ++ '"' :: (escStr s ++ ['"'])) =
      some (fun m => { m with etag := some ⟨s⟩ }) := by
  simp [parseLine, startsWithChars_append_self, List.drop_left, parseStrValue_encoded]

theorem parseLine_lm (s : List Char) :
    parseLine (lastModifiedKey ++ '"' :: (escStr s ++ ['"'])) =
      some (fun m => { m with last_modified := some ⟨s⟩ }) := by
  simp [parseLine, startsWith_lm_etag, startsWithChars_append_self, List.drop_left,
    parseStrValue_encoded]

theorem parseLine_fa (s : List Char) :
    parseLine (fetchedAtKey ++ '"' :: (escStr s ++ ['"'])) =
      some (fun m => { m with fetched_at := some ⟨s⟩ }) := by
  simp [parseLine, startsWith_fa_etag, startsWith_fa_lm, startsWithChars_append_self,
    List.drop_left, parseStrValue_encoded]

theorem parseLine_ts (n : Nat) :
    parseLine (totalSizeKey ++ natToChars n) =
      some (fun m => { m with total_size := some n }) := by
  simp [parseLine, startsWith_ts_etag, startsWith_ts_lm, startsWith_ts_fa,
    startsWithChars_append_self, List.drop_left, parseNat_natToChars]

theorem splitNl_joinLines (ls : List (List Char)) (h : ∀ l ∈ ls, '\n' ∉ l) :
    splitNl (joinLines ls) = ls ++ [[]] := by
  induction ls with
  | nil => rfl
  | cons l ls ih =>
    show splitNl (l ++ '\n' :: joinLines ls) = (l :: ls) ++ [[]]
    rw [splitNl_line l _ (h l (List.mem_cons_self l ls)),
      ih (fun x hx => h x (List.mem_cons_of_mem l hx))]
    rfl

theorem nl_not_mem_strLine (k : List Char) (hk : '\n' ∉ k) (s : List Char) :
    '\n' ∉ k ++ '"' :: (escStr s ++ ['"']) := by
  intro hm
  rcases List.mem_append.mp hm with h | h
  · exact hk h
  · rcases List.mem_cons.mp h with h | h
    · exact absurd h (by decide)
    · rcases List.mem_append.mp h with h | h
      · exact nl_not_mem_escStr s h
      · exact absurd h (by decide)

theorem metaLines_no_nl (m : Meta) : ∀ l ∈ metaLines m, '\n' ∉ l := by
  intro l hl
  unfold metaLines at hl
  rcases List.mem_append.mp hl with hl3 | h4
  · rcases List.mem_append.mp hl3 with hl2 | h3
    · rcases List.mem_append.mp hl2 with h1 | h2
      · cases he : m.etag with
        | none => rw [he] at h1; simp [strFieldLine] at h1
        | some s =>
          rw [he] at h1
          simp only [strFieldLine, List.mem_cons, List.not_mem_nil, or_false] at h1
          rw [h1]
          exact nl_not_mem_strLine etagKey (by decide) s.data
      · cases he : m.last_modified with
        | none => rw [he] at h2; simp [strFieldLine] at h2
        | some s =>
          rw [he] at h2
          simp only [strFieldLine, List.mem_cons, List.not_mem_nil, or_false] at h2
          rw [h2]
          exact nl_not_mem_strLine lastModifiedKey (by decide) s.data
    · cases he : m.fetched_at with
      | none => rw [he] at h3; simp [strFieldLine] at h3
      | some s =>
        rw [he] at h3
        simp only [strFieldLine, List.mem_cons, List.not_mem_nil, or_false] at h3
        rw [h3]
        exact nl_not_mem_strLine fetchedAtKey (by decide) s.data
  · cases he : m.total_size with
    | none => rw [he] at h4; simp [natFieldLine] at h4
    | some n =>
      rw [he] at h4
      simp only [natFieldLine, List.mem_cons, List.not_mem_nil, or_false] at h4
      rw [h4]
      intro hm
      rcases List.mem_append.mp hm with h | h
      · exact absurd h (by decide)
      · exact nl_not_mem_natToChars n h

theorem decodeLines_append (a b : List (List Char)) :
    ∀ m, decodeLines (a ++ b) m =
      match decodeLines a m with
      | some m2 => decodeLines b m2
      | none => none := by
  induction a with
  | nil => intro m; simp [decodeLines]
  | cons l ls ih =>
    intro m
    rw [List.cons_append]
    by_cases hl : l = []
    · simp only [decodeLines, if_pos hl, ih]
    · simp only [decodeLines, if_neg hl]
      cases hp : parseLine l with
      | none => simp only []
      | some upd => exact ih (upd m)

theorem strLine_ne_nil (k : List Char) (hk : k ≠ []) (v : List Char) : k ++ v ≠ [] := by
  cases k with
  | nil => exact absurd rfl hk
  | cons a as => simp

theorem decodeLines_cons_parsed (l : List Char) (ls : List (List Char)) (upd : Meta → Meta)
    (h : parseLine l = some upd) (hne : l ≠ []) :
    ∀ m2, decodeLines (l :: ls) m2 = decodeLines ls (upd m2) := by
  intro m2
  simp only [decodeLines, if_neg hne, h]

theorem decode_block_etag (v : Option String) (ls : List (List Char))
    (lm fa : Option String) (ts : Option Nat) :
    decodeLines (strFieldLine etagKey v ++ ls) (Meta.mk none lm fa ts) =
      decodeLines ls (Meta.mk v lm fa ts) := by
  cases v with
  | none => rfl
  | some s =>
    simp only [strFieldLine, List.cons_append, List.nil_append]
    rw [decodeLines_cons_parsed _ _ _ (parseLine_etag s.data)
      (strLine_ne_nil etagKey (by decide) _)]

theorem decode_block_lm (v : Option String) (ls : List (List Char))
    (e fa : Option String) (ts : Option Nat) :
    decodeLines (strFieldLine lastModifiedKey v ++ ls) (Meta.mk e none fa ts) =
      decodeLines ls (Meta.mk e v fa ts) := by
  cases v with
  | none => rfl
  | some s =>
    simp only [strFieldLine, List.cons_append, List.nil_append]
    rw [decodeLines_cons_parsed _ _ _ (parseLine_lm s.data)
      (strLine_ne_nil lastModifiedKey (by decide) _)]

theorem decode_block_fa (v : Option String) (ls : List (List Char))
    (e lm : Option String) (ts : Option Nat) :
    decodeLines (strFieldLine fetchedAtKey v ++ ls) (Meta.mk e lm none ts) =
      decodeLines ls (Meta.mk e lm v ts) := by
  cases v with
  | none => rfl
  | some s =>
    simp only [strFieldLine, List.cons_append, List.nil_append]
    rw [decodeLines_cons_parsed _ _ _ (parseLine_fa s.data)
      (strLine_ne_nil fetchedAtKey (by decide) _)]

theorem decode_block_ts (v : Option Nat) (ls : List (List Char))
    (e lm fa : Option String) :
    decodeLines (natFieldLine totalSizeKey v ++ ls) (Meta.mk e lm fa none) =
      decodeLines ls (Meta.mk e lm fa v) := by
  cases v with
  | none => rfl
  | some n =>
    simp only [natFieldLine, List.cons_append, List.nil_append]
    rw [decodeLines_cons_parsed _ _ _ (parseLine_ts n)
      (strLine_ne_nil totalSizeKey (by decide) _)]

theorem decodeMeta_encodeMeta (m : Meta) : decodeMeta (encodeMeta m) = some m := by
  rcases m with ⟨e, lm, fa, ts⟩
  unfold decodeMeta encodeMeta
  rw [splitNl_joinLines _ (metaLines_no_nl _)]
  rw [decodeLines_append]
  have hassoc : metaLines (Meta.mk e lm fa ts) =
      strFieldLine etagKey e ++ (strFieldLine lastModifiedKey lm ++
        (strFieldLine fetchedAtKey fa ++ natFieldLine totalSizeKey ts)) := by
    simp [metaLines, List.append_assoc]
  have hmarch : decodeLines (metaLines (Meta.mk e lm fa ts)) Meta.default =
      some (Meta.mk e lm fa ts) := by
    rw [hassoc]
    show decodeLines _ (Meta.mk none none none none) = _
    rw [decode_block_etag, decode_block_lm, decode_block_fa,
      ← List.append_nil (natFieldLine totalSizeKey ts), decode_block_ts]
    rfl
  rw [hmarch]
  rfl

/-- C9: the metadata round trip is lossless: for every `Meta` value `m` and
path `p`, after `save_meta(p, m)` succeeds, `load_meta(p)` returns exactly
`m`, preserving the presence and the absence of each of the fields `etag`,
`last_modified`, `fetched_at` and `total_size` (the serialised document is
the `key = value` TOML fragment `toml::to_string` emits for `Meta`). -/
theorem spec_C9 (fsys : String → Option (List Char)) (p : String) (m : Meta) :
    loadMeta (saveMeta fsys p m) p = some m := by
  unfold loadMeta saveMeta
  simp [decodeMeta_encodeMeta]

end Relayfetch
